import Mathlib

/-!
# Verification of the plm_delux code-analysis / architecture-layout pipeline

A shallow embedding, in Lean 4, of the parts of the `plm_delux` repository
that carry the system's invariants:

* the architecture layout effect of `ArchitectureEditor.tsx`
  (`countBlocksInLevel`, `calculatePosition`, `processBlock`);
* the requirement construction of `App.tsx` (`handleAnalysisComplete`);
* the domain-configuration editing of `SettingsDialog.tsx`
  (`handleAddDomain`, `handleRemoveDomain`);
* the client progress-poll loop and progress display of `CodeAnalyzer.tsx`;
* the backend analysis orchestrator (not present in the repository snapshot;
  modelled from the design document).

JavaScript numbers are embedded as rationals (`ℚ`); JS objects used as
string-keyed maps are embedded as association lists or as
`String → Option _` functions; JS truthiness on optional numbers is made
explicit (`jsOr`).
-/

namespace PlmDelux

/-! ## Data model: architecture blocks (ArchitectureEditor.tsx) -/

/-- An architecture block as consumed by `ArchitectureEditor.tsx`:
name, optional domain and description, requirement-id list, subblock-id
list, and the optional persisted coordinates `x`, `y`. -/
structure Block where
  name : String
  domain : Option String := none
  description : Option String := none
  requirements : List String := []
  subblocks : List String := []
  x : Option ℚ := none
  y : Option ℚ := none
  deriving Repr, DecidableEq

/-- The architecture object: `root_id` plus the `blocks` map, embedded as
an association list (JS object, insertion order preserved). -/
structure Architecture where
  root_id : String
  blocks : List (String × Block)
  deriving Repr, DecidableEq

/-- `architecture.blocks[blockId]` — JS property lookup on the blocks map. -/
def Architecture.lookup (arch : Architecture) (blockId : String) : Option Block :=
  List.lookup blockId arch.blocks

/-- JS `v || d` for an optional number `v`: `undefined` and `0` are falsy,
every other rational is truthy. -/
def jsOr (v : Option ℚ) (d : ℚ) : ℚ :=
  match v with
  | some x => if x = 0 then d else x
  | none => d

/-- A ReactFlow node as built by the layout effect: id, the final
position, and the data fields taken from the block. -/
structure Node where
  id : String
  x : ℚ
  y : ℚ
  label : String
  domain : Option String
  description : Option String
  requirements : List String
  deriving Repr, DecidableEq

/-- A ReactFlow edge as built by the layout effect.  `isReq = false` for
the gray structural (parent→subblock) edges, `true` for the dashed blue
requirement-sharing cross-edges (whose `label` is the requirement id). -/
structure Edge where
  id : String
  source : String
  target : String
  isReq : Bool
  label : Option String
  deriving Repr, DecidableEq

/-! ## First pass: `countBlocksInLevel` -/

/-- The mutable state of the first pass: `blocksPerLevel` and
`blockLevels`. -/
structure CountState where
  blocksPerLevel : Nat → Nat
  blockLevels : String → Option Nat

/-- The initial (empty-object) state of the first pass. -/
def initCount : CountState :=
  { blocksPerLevel := fun _ => 0, blockLevels := fun _ => none }

/-- The two assignments at the head of `countBlocksInLevel`:
`blocksPerLevel[level] = (blocksPerLevel[level] || 0) + 1` and
`blockLevels[blockId] = level`. -/
def CountState.bump (st : CountState) (blockId : String) (level : Nat) : CountState :=
  { blocksPerLevel := fun l => if l = level then st.blocksPerLevel level + 1 else st.blocksPerLevel l,
    blockLevels := fun b => if b = blockId then some level else st.blockLevels b }

/-- `countBlocksInLevel(blockId, level)` of `ArchitectureEditor.tsx`,
with explicit fuel: the JS function recurses into every subblock with no
visited-set, so it need not terminate; `none` means the fuel ran out
(the JS recursion would still be running / overflow the stack).  The
`forEach` over `block.subblocks` is the `foldlM`. -/
def countBlocksInLevel (arch : Architecture) :
    Nat → String → Nat → CountState → Option CountState
  | 0, _, _, _ => none
  | fuel + 1, blockId, level, st =>
    let st1 := st.bump blockId level
    match arch.lookup blockId with
    | none => some st1
    | some block =>
      block.subblocks.foldlM
        (fun s subId => countBlocksInLevel arch fuel subId (level + 1) s) st1

/-! ## `calculatePosition` -/

/-- `calculatePosition(blockId, level, index, totalInLevel)` of
`ArchitectureEditor.tsx`:
`BLOCK_SPACING = LEVEL_WIDTH / (totalInLevel + 1)`,
`x = BLOCK_SPACING * (index + 1) - LEVEL_WIDTH / 2`,
`y = level * LEVEL_HEIGHT`. -/
def calculatePosition (_blockId : String) (level index totalInLevel : Nat) : ℚ × ℚ :=
  let LEVEL_HEIGHT : ℚ := 150
  let LEVEL_WIDTH : ℚ := 1200
  let BLOCK_SPACING : ℚ := LEVEL_WIDTH / (totalInLevel + 1)
  (BLOCK_SPACING * (index + 1) - LEVEL_WIDTH / 2, level * LEVEL_HEIGHT)

/-! ## Second pass: `processBlock` -/

/-- The mutable state of the second pass: the `processedBlocks` set, the
per-level counters, and the accumulated node and edge arrays. -/
structure ProcState where
  processed : List String
  levelCounters : Nat → Nat
  nodes : List Node
  edges : List Edge

/-- The initial state of the second pass. -/
def initProc : ProcState :=
  { processed := [], levelCounters := fun _ => 0, nodes := [], edges := [] }

/-- The node pushed by `processBlock` for `blockId`: position
`{ x: block.x || position.x, y: block.y || position.y }` and the data
fields copied from the block. -/
def mkNode (blockId : String) (block : Block) (pos : ℚ × ℚ) : Node :=
  { id := blockId
    x := jsOr block.x pos.1
    y := jsOr block.y pos.2
    label := block.name
    domain := block.domain
    description := block.description
    requirements := block.requirements }

/-- The structural edge `{ id: blockId-subId, source: blockId, target: subId }`. -/
def structEdge (blockId subId : String) : Edge :=
  { id := blockId ++ "-" ++ subId, source := blockId, target := subId,
    isReq := false, label := none }

/-- A requirement-sharing cross-edge
`{ id: blockId-otherId-reqId, source: blockId, target: otherId, label: reqId }`. -/
def reqEdge (blockId otherId reqId : String) : Edge :=
  { id := blockId ++ "-" ++ otherId ++ "-" ++ reqId, source := blockId,
    target := otherId, isReq := true, label := some reqId }

/-- The inner loop of the requirement-connection pass: for a fixed
`reqId` of `blockId`, iterate `Object.entries(architecture.blocks)` and
emit a cross-edge to every other block whose requirement list contains
`reqId`. -/
def crossEdgesForReq (arch : Architecture) (blockId reqId : String) : List Edge :=
  arch.blocks.foldl
    (fun acc ob =>
      if ob.1 ≠ blockId ∧ reqId ∈ ob.2.requirements then
        acc ++ [reqEdge blockId ob.1 reqId]
      else acc) []

/-- The `block.requirements.forEach(...)` pass of `processBlock`: all
cross-edges emitted for `blockId`. -/
def reqEdgesFor (arch : Architecture) (blockId : String) (block : Block) : List Edge :=
  block.requirements.foldl (fun acc reqId => acc ++ crossEdgesForReq arch blockId reqId) []

/-- `processBlock(blockId)` of `ArchitectureEditor.tsx`, with explicit
fuel (the JS recursion is bounded by the `processedBlocks` set; fuel is
a convenience for the embedding).  `levels` and `perLevel` are the
`blockLevels` / `blocksPerLevel` objects produced by the first pass.
The `block.subblocks.forEach(subId => ...)` loop — push the structural
edge, then recursively process the subblock — is the `foldlM`. -/
def processBlock (arch : Architecture) (levels : String → Option Nat)
    (perLevel : Nat → Nat) :
    Nat → String → ProcState → Option ProcState
  | 0, _, _ => none
  | fuel + 1, blockId, st =>
    if blockId ∈ st.processed then some st
    else
      let st1 := { st with processed := blockId :: st.processed }
      match arch.lookup blockId with
      | none => some st1
      | some block =>
        let level := (levels blockId).getD 0
        let index := st1.levelCounters level
        let position := calculatePosition blockId level index (perLevel level)
        let st2 : ProcState :=
          { st1 with
            levelCounters := fun l =>
              if l = level then st1.levelCounters level + 1 else st1.levelCounters l,
            nodes := st1.nodes ++ [mkNode blockId block position] }
        match block.subblocks.foldlM
            (fun s subId =>
              processBlock arch levels perLevel fuel subId
                { s with edges := s.edges ++ [structEdge blockId subId] }) st2 with
        | none => none
        | some st3 =>
          some { st3 with edges := st3.edges ++ reqEdgesFor arch blockId block }

/-- The whole layout `useEffect` of `ArchitectureEditor.tsx`: run the
first pass from the root at level 0, then the second pass from the
root, and return the freshly built node and edge arrays (`none` when the
fuel runs out, i.e. when the JS recursion would not have returned). -/
def generateLayout (arch : Architecture) (fuel : Nat) : Option (List Node × List Edge) :=
  match countBlocksInLevel arch fuel arch.root_id 0 initCount with
  | none => none
  | some cst =>
    match processBlock arch cst.blockLevels cst.blocksPerLevel fuel arch.root_id initProc with
    | none => none
    | some pst => some (pst.nodes, pst.edges)

/-- The layout effect as a state transformer on the component's
`(nodes, edges)` state: the effect recomputes both arrays from the
architecture alone and replaces the previous state wholesale
(`setNodes(newNodes); setEdges(newEdges)`); when the traversal does not
return, the state is not replaced. -/
def applyLayoutEffect (arch : Architecture) (fuel : Nat)
    (state : List Node × List Edge) : List Node × List Edge :=
  match generateLayout arch fuel with
  | some fresh => fresh
  | none => state

/-! ## Concrete architectures used as inputs -/

/-- A root with two level-1 children: `A` carries a persisted position
`(x = 0, y = 80)`, `B` carries none. -/
def archMixed : Architecture :=
  { root_id := "R"
    blocks := [("R", { name := "Root", subblocks := ["A", "B"] }),
               ("A", { name := "A", x := some 0, y := some 80 }),
               ("B", { name := "B" })] }

/-- A two-block structural cycle reachable from the root:
`R.subblocks = [A]` and `A.subblocks = [R]`. -/
def archCycle : Architecture :=
  { root_id := "R"
    blocks := [("R", { name := "Root", subblocks := ["A"] }),
               ("A", { name := "A", subblocks := ["R"] })] }

/-- A position-free architecture mirroring the design document's
scenario: a root with two level-1 children, no persisted positions. -/
def archFree : Architecture :=
  { root_id := "R"
    blocks := [("R", { name := "Root", subblocks := ["UI", "MO"] }),
               ("UI", { name := "ui" }),
               ("MO", { name := "motor" })] }

/-- The node/edge arrays the layout produces for `archFree`. -/
def layoutFree : List Node × List Edge :=
  ([{ id := "R", x := 0, y := 0, label := "Root", domain := none,
      description := none, requirements := [] },
    { id := "UI", x := -200, y := 150, label := "ui", domain := none,
      description := none, requirements := [] },
    { id := "MO", x := 200, y := 150, label := "motor", domain := none,
      description := none, requirements := [] }],
   [structEdge "R" "UI", structEdge "R" "MO"])

/-! ## C1 — persisted positions vs `block.x || position.x` -/

/-- **C1** (code-bug evaluation): in `archMixed`, block `A` carries the
persisted position `(x = 0, y = 80)`, yet re-running the layout yields
the node `("A", -200, 80)`: the persisted `x = 0` is replaced by the
freshly computed `-200`, because `x: block.x || position.x` treats the
number `0` as absent (JS falsiness), while the persisted `y = 80`
survives.  This refutes the claim's quantification over all persisted
positions including `x = 0`. -/
theorem persisted_zero_x_overwritten :
    (archMixed.lookup "A").map (fun b => (b.x, b.y)) = some (some 0, some 80) ∧
    (generateLayout archMixed 5).map (fun r => r.1.map (fun n => (n.id, n.x, n.y)))
      = some [("R", 0, 0), ("A", -200, 80), ("B", 200, 150)] ∧
    ((-200 : ℚ) ≠ 0) :=
  ⟨by with_unfolding_all rfl, by with_unfolding_all rfl, by norm_num⟩

/-! ## C2 — the depth traversal does not detect cycles -/

/-- On the cyclic `archCycle`, the first pass starting from either block
exhausts any amount of fuel: the JS recursion is unbounded. -/
theorem countCycle_exhausts_any_fuel :
    ∀ fuel level st,
      countBlocksInLevel archCycle fuel "R" level st = none ∧
      countBlocksInLevel archCycle fuel "A" level st = none := by
  have hR : archCycle.lookup "R" = some ⟨"Root", none, none, [], ["A"], none, none⟩ := by
    with_unfolding_all rfl
  have hA : archCycle.lookup "A" = some ⟨"A", none, none, [], ["R"], none, none⟩ := by
    with_unfolding_all rfl
  intro fuel
  induction fuel with
  | zero => intro level st; exact ⟨rfl, rfl⟩
  | succ n ih =>
    intro level st
    refine ⟨?_, ?_⟩
    · simp only [countBlocksInLevel, hR, List.foldlM]
      simp [(ih _ _).2]
    · simp only [countBlocksInLevel, hA, List.foldlM]
      simp [(ih _ _).1]

/-- **C2** (code-bug evaluation): `countBlocksInLevel` carries no
visited-set and raises no StructuralError; on the cyclic input
`archCycle` (a cycle reachable from the root over subblock edges) the
depth traversal — and with it the whole layout effect — never returns,
no matter how much fuel it is given.  In the browser this is unbounded
recursion ending in a stack overflow, not the StructuralError rejection
the claim describes. -/
theorem depth_traversal_diverges_on_cycle :
    ∀ fuel,
      countBlocksInLevel archCycle fuel archCycle.root_id 0 initCount = none ∧
      generateLayout archCycle fuel = none := by
  intro fuel
  have hRoot : archCycle.root_id = "R" := rfl
  have h := (countCycle_exhausts_any_fuel fuel 0 initCount).1
  refine ⟨hRoot ▸ h, ?_⟩
  simp [generateLayout, hRoot, h]

/-! ## C4 — within-level geometry of `calculatePosition` -/

/-- **C4** (counterexample): in `archMixed`, depth level 1 holds two
blocks, `A` with a persisted position and `B` without one.  The layout
still lets `A` consume a slot of the level, so the single position-free
block `B` is computed at `x = 200`: the multiset `{200}` of
x-coordinates of the level's position-free blocks sums to `200 ≠ 0` and
is not symmetric about `0`, refuting the claim at this input. -/
theorem positionFree_level_not_centered :
    (countBlocksInLevel archMixed 5 archMixed.root_id 0 initCount).map
        (fun c => (c.blockLevels "A", c.blockLevels "B", c.blocksPerLevel 1))
      = some (some 1, some 1, 2) ∧
    (archMixed.lookup "A").map (fun b => (b.x, b.y)) = some (some 0, some 80) ∧
    (archMixed.lookup "B").map (fun b => (b.x, b.y)) = some (none, none) ∧
    (generateLayout archMixed 5).map
        (fun r => (r.1.filter (fun n => n.id == "B")).map (fun n => (n.x, n.y)))
      = some [(200, 150)] ∧
    ([(200 : ℚ)].sum ≠ 0) :=
  ⟨by with_unfolding_all rfl, by with_unfolding_all rfl, by with_unfolding_all rfl,
   by with_unfolding_all rfl, by norm_num⟩

/-- **C4** (amended): within a depth level of `t` blocks in total
(position-free or not — persisted blocks consume slots), the candidate
coordinates computed by `calculatePosition` place slot `i < t` at
`x_i = 1200·(i+1)/(t+1) − 600`: consecutive slots are evenly spaced by
`1200/(t+1)` (a spacing that depends on `t`, not a fixed minimum), the
multiset of all `t` candidate x-coordinates is symmetric about `0` and
sums to `0`, and the candidate y-coordinate is `level × 150` with a top
margin of `0`.  (The claim's per-level centering of the position-free
blocks alone holds only when no block of the level has a persisted
position.) -/
theorem calculatePosition_level_geometry (id : String) (level i t : Nat) (h : i < t) :
    (calculatePosition id level i t).2 = (level : ℚ) * 150 + 0 ∧
    (calculatePosition id level (i + 1) t).1 - (calculatePosition id level i t).1
      = 1200 / ((t : ℚ) + 1) ∧
    (calculatePosition id level i t).1 + (calculatePosition id level (t - 1 - i) t).1 = 0 ∧
    (Finset.range t).sum (fun j => (calculatePosition id level j t).1) = 0 := by
  have hsym : ∀ j, j < t →
      (calculatePosition id level j t).1 + (calculatePosition id level (t - 1 - j) t).1 = 0 := by
    intro j hj
    obtain ⟨k, hk⟩ : ∃ k, t = j + k + 1 := ⟨t - j - 1, by omega⟩
    subst hk
    have h2 : (j + k + 1) - 1 - j = k := by omega
    rw [h2]
    simp only [calculatePosition]
    push_cast
    field_simp
    ring
  refine ⟨?_, ?_, hsym i h, ?_⟩
  · simp [calculatePosition]
  · simp only [calculatePosition]
    push_cast
    ring
  · have hrefl := Finset.sum_range_reflect (fun j => (calculatePosition id level j t).1) t
    have h2 : (2 : ℚ) * (Finset.range t).sum (fun j => (calculatePosition id level j t).1)
        = (Finset.range t).sum (fun j =>
            (calculatePosition id level j t).1 + (calculatePosition id level (t - 1 - j) t).1) := by
      rw [Finset.sum_add_distrib, hrefl]
      ring
    have h3 : (Finset.range t).sum (fun j =>
        (calculatePosition id level j t).1 + (calculatePosition id level (t - 1 - j) t).1) = 0 :=
      Finset.sum_eq_zero fun j hj => hsym j (Finset.mem_range.mp hj)
    linarith [h2.trans h3]

/-- Witness for `calculatePosition_level_geometry` at
`id = "W"`, `level = 1`, `i = 0`, `t = 2`. -/
theorem calculatePosition_level_geometry_witness :
    0 < 2 ∧
    ((calculatePosition "W" 1 0 2).2 = ((1 : Nat) : ℚ) * 150 + 0 ∧
     (calculatePosition "W" 1 (0 + 1) 2).1 - (calculatePosition "W" 1 0 2).1
       = 1200 / (((2 : Nat) : ℚ) + 1) ∧
     (calculatePosition "W" 1 0 2).1 + (calculatePosition "W" 1 (2 - 1 - 0) 2).1 = 0 ∧
     (Finset.range 2).sum (fun j => (calculatePosition "W" 1 j 2).1) = 0) :=
  ⟨by norm_num, calculatePosition_level_geometry "W" 1 0 2 (by norm_num)⟩

/-! ## C5 — the layout reads nothing but the architecture -/

/-- **C5**: layout determinism.  The layout effect's output is a
function of the architecture alone: running `generate_architecture`'s
client-side layout twice over an unchanged, position-free block set —
from any two component states, or iterating the effect — yields
identical `(x, y)` coordinates for every block. -/
theorem layout_deterministic (arch : Architecture) (fuel : Nat)
    (r : List Node × List Edge)
    (hfree : ∀ p ∈ arch.blocks, p.2.x = none ∧ p.2.y = none)
    (h : generateLayout arch fuel = some r)
    (s₁ s₂ : List Node × List Edge) :
    (applyLayoutEffect arch fuel s₁).1.map (fun n => (n.id, n.x, n.y))
      = (applyLayoutEffect arch fuel s₂).1.map (fun n => (n.id, n.x, n.y)) ∧
    applyLayoutEffect arch fuel (applyLayoutEffect arch fuel s₁)
      = applyLayoutEffect arch fuel s₁ := by
  unfold applyLayoutEffect
  rw [h]
  exact ⟨rfl, rfl⟩

/-- Witness for `layout_deterministic` on the position-free `archFree`. -/
theorem layout_deterministic_witness :
    (∀ p ∈ archFree.blocks, p.2.x = none ∧ p.2.y = none) ∧
    generateLayout archFree 5 = some layoutFree ∧
    ((applyLayoutEffect archFree 5 ([], [])).1.map (fun n => (n.id, n.x, n.y))
        = (applyLayoutEffect archFree 5 layoutFree).1.map (fun n => (n.id, n.x, n.y)) ∧
     applyLayoutEffect archFree 5 (applyLayoutEffect archFree 5 ([], []))
       = applyLayoutEffect archFree 5 ([], [])) := by
  have hfree : ∀ p ∈ archFree.blocks, p.2.x = none ∧ p.2.y = none := by decide
  have h : generateLayout archFree 5 = some layoutFree := by with_unfolding_all rfl
  exact ⟨hfree, h, layout_deterministic archFree 5 layoutFree hfree h ([], []) layoutFree⟩

/-! ## Requirement construction from analysis results (App.tsx,
`handleAnalysisComplete`) -/

/-- A function descriptor of a `FileAnalysis` (`fn.name`,
`fn.line_number`). -/
structure FunctionInfo where
  name : String
  line_number : Nat
  deriving Repr, DecidableEq

/-- One entry of a requirement's `code_references` array. -/
structure CodeReference where
  file : String
  line : Nat
  function : String
  type : String
  url : String
  deriving Repr, DecidableEq

/-- The fields of a `FileAnalysis` consumed by
`handleAnalysisComplete`. -/
structure FileAnalysisData where
  purpose : Option String := none
  key_functionality : List String := []
  implementation_details : List String := []
  domain : Option String := none
  functions : List FunctionInfo := []
  deriving Repr, DecidableEq

/-- JS `v || d` for an optional string: `undefined` and `""` are falsy. -/
def jsOrStr (v : Option String) (d : String) : String :=
  match v with
  | some s => if s = "" then d else s
  | none => d

/-- The characterwise effect of
`filePath.replace(/[^a-zA-Z0-9]/g, '_')`. -/
def sanitizeChar (c : Char) : Char :=
  if c.isAlphanum then c else '_'

/-- `fileAnalysis.functions.map(fn => ({file, line, function, type, url}))`
of `handleAnalysisComplete`: a plain map, with no deduplication. -/
def mkCodeReferences (filePath : String) (functions : List FunctionInfo) :
    List CodeReference :=
  functions.map fun fn =>
    { file := filePath
      line := fn.line_number
      function := fn.name
      type := "function"
      url := "#" ++ filePath ++ ":" ++ toString fn.line_number }

/-- The requirement object built by `handleAnalysisComplete` for one
analyzed file. -/
structure RequirementDoc where
  id : String
  domain : String
  description : String
  linked_blocks : List String
  additional_notes : List String
  implementation_files : List String
  code_references : List CodeReference
  deriving Repr, DecidableEq

/-- The `newRequirement` constructed by `handleAnalysisComplete` from one
`(filePath, fileAnalysis)` entry of the analysis results. -/
def mkRequirementFromAnalysis (filePath : String) (fa : FileAnalysisData) :
    RequirementDoc :=
  { id := "RQ-" ++ (filePath.map sanitizeChar)
    domain := jsOrStr fa.domain "Uncategorized"
    description := jsOrStr fa.purpose "No description available"
    linked_blocks := []
    additional_notes := fa.key_functionality ++ fa.implementation_details
    implementation_files := [filePath]
    code_references := mkCodeReferences filePath fa.functions }

/-- Two code references agreeing on all of file, line and function. -/
def sameRefKey (r s : CodeReference) : Prop :=
  r.file = s.file ∧ r.line = s.line ∧ r.function = s.function

instance : DecidableRel sameRefKey := fun r s => by
  unfold sameRefKey; infer_instance

/-! ## C7 — code references are not deduplicated -/

/-- **C7** (counterexample): a file analysis whose function list repeats
the pair `("f", 3)` yields a requirement whose `code_references` list
contains two entries agreeing on all of file, line and function:
`handleAnalysisComplete` maps the function list 1:1 and never
deduplicates, so the claimed invariant fails on this input. -/
theorem code_references_not_deduplicated :
    ¬ (mkRequirementFromAnalysis "a.py"
        { functions := [⟨"f", 3⟩, ⟨"f", 3⟩] }).code_references.Pairwise
        (fun r s => ¬ sameRefKey r s) := by
  decide

/-- **C7** (amended): the `code_references` list is the function list
mapped 1:1; it is free of duplicate (file, line, function) keys exactly
when the incoming function list never repeats a `(name, line_number)`
pair — the construction itself performs no deduplication. -/
theorem code_references_dedup_iff_functions_nodup (filePath : String)
    (fa : FileAnalysisData)
    (h : fa.functions.Pairwise
      (fun f g => ¬ (f.name = g.name ∧ f.line_number = g.line_number))) :
    (mkRequirementFromAnalysis filePath fa).code_references
      = mkCodeReferences filePath fa.functions ∧
    (mkRequirementFromAnalysis filePath fa).code_references.Pairwise
      (fun r s => ¬ sameRefKey r s) := by
  refine ⟨rfl, ?_⟩
  show (mkCodeReferences filePath fa.functions).Pairwise (fun r s => ¬ sameRefKey r s)
  unfold mkCodeReferences
  refine List.Pairwise.map _ (fun f g hfg => ?_) h
  intro hkey
  exact hfg ⟨hkey.2.2, hkey.2.1⟩

/-- Witness for `code_references_dedup_iff_functions_nodup`: two
functions sharing a line but not a name. -/
theorem code_references_dedup_witness :
    ([⟨"f", 3⟩, ⟨"g", 3⟩] : List FunctionInfo).Pairwise
      (fun f g => ¬ (f.name = g.name ∧ f.line_number = g.line_number)) ∧
    ((mkRequirementFromAnalysis "a.py"
        { functions := [⟨"f", 3⟩, ⟨"g", 3⟩] }).code_references
      = mkCodeReferences "a.py" [⟨"f", 3⟩, ⟨"g", 3⟩] ∧
     (mkRequirementFromAnalysis "a.py"
        { functions := [⟨"f", 3⟩, ⟨"g", 3⟩] }).code_references.Pairwise
      (fun r s => ¬ sameRefKey r s)) :=
  ⟨by decide,
   code_references_dedup_iff_functions_nodup "a.py"
     { functions := [⟨"f", 3⟩, ⟨"g", 3⟩] } (by decide)⟩

/-! ## The analysis-progress data (CodeAnalyzer.tsx) -/

/-- `status` of the `AnalysisProgress` interface of `CodeAnalyzer.tsx`:
`'idle' | 'running' | 'completed' | 'error'`. -/
inductive JobStatus
  | idle
  | running
  | completed
  | error
  deriving Repr, DecidableEq

/-- The `AnalysisProgress` interface of `CodeAnalyzer.tsx`. -/
structure AnalysisProgress where
  total_files : Nat
  analyzed_files : Nat
  current_file : Option String
  status : JobStatus
  error_message : Option String
  deriving Repr, DecidableEq

/-! ## C10 — the displayed progress fraction -/

/-- The value fed to the `Progress` bar of `CodeAnalyzer.tsx`:
`(progress.analyzed_files / Math.max(progress.total_files, 1)) * 100`. -/
def progressValue (p : AnalysisProgress) : ℚ :=
  (p.analyzed_files : ℚ) / max (p.total_files : ℚ) 1 * 100

/-- **C10**: the progress fraction is always well defined — the
denominator `max(total_files, 1)` is never zero (also when
`total_files = 0`), and whenever `analyzed_files ≤ total_files` the
value lies in `[0, 100]`. -/
theorem progress_value_well_defined (p : AnalysisProgress) :
    max (p.total_files : ℚ) 1 ≠ 0 ∧
    (p.analyzed_files ≤ p.total_files →
      0 ≤ progressValue p ∧ progressValue p ≤ 100) := by
  have hpos : (0 : ℚ) < max (p.total_files : ℚ) 1 :=
    lt_of_lt_of_le one_pos (le_max_right _ _)
  refine ⟨ne_of_gt hpos, fun h => ⟨?_, ?_⟩⟩
  · unfold progressValue
    positivity
  · unfold progressValue
    have hle : (p.analyzed_files : ℚ) ≤ max (p.total_files : ℚ) 1 := by
      refine le_trans ?_ (le_max_left _ _)
      exact_mod_cast h
    have h1 : (p.analyzed_files : ℚ) / max (p.total_files : ℚ) 1 ≤ 1 :=
      (div_le_one hpos).mpr hle
    calc (p.analyzed_files : ℚ) / max (p.total_files : ℚ) 1 * 100
        ≤ 1 * 100 := by
          exact mul_le_mul_of_nonneg_right h1 (by norm_num)
      _ = 100 := by norm_num

/-- Witness for `progress_value_well_defined` at the corner snapshot
`total_files = 0`, `analyzed_files = 0`. -/
theorem progress_value_well_defined_witness :
    (max (((AnalysisProgress.mk 0 0 none .idle none).total_files : ℚ)) 1 ≠ 0 ∧
     ((AnalysisProgress.mk 0 0 none .idle none).analyzed_files
        ≤ (AnalysisProgress.mk 0 0 none .idle none).total_files →
       0 ≤ progressValue (AnalysisProgress.mk 0 0 none .idle none) ∧
       progressValue (AnalysisProgress.mk 0 0 none .idle none) ≤ 100)) ∧
    (AnalysisProgress.mk 0 0 none .idle none).analyzed_files
      ≤ (AnalysisProgress.mk 0 0 none .idle none).total_files :=
  ⟨progress_value_well_defined (AnalysisProgress.mk 0 0 none .idle none), le_refl 0⟩

/-! ## C3 — the backend orchestrator's `start` exclusivity -/

/-- Modelled from the spec: the backend `AnalysisOrchestrator` is not in
the repository snapshot (only its HTTP callers in `CodeAnalyzer.tsx`
are), so its state — the scan result, the single live `AnalysisJob`, and
the analysis cache — is taken from §3/§4.3 of the design document. -/
structure OrchestratorState where
  scanned : List String
  job : AnalysisProgress
  cache : List (String × FileAnalysisData)
  deriving Repr, DecidableEq

/-- The orchestrator's answer to `start`. -/
inductive StartResult
  | accepted
  | rejected (msg : String)
  deriving Repr, DecidableEq

/-- Modelled from the spec (§4.3): `start(file_list | all)` is rejected
with the signal "job already in progress" when the job is already
`running`, leaving the state unchanged; otherwise it begins a fresh job
over the requested files (or all scanned files), fixing `total_files`
at job start. -/
def orchestratorStart (s : OrchestratorState) (files : Option (List String)) :
    OrchestratorState × StartResult :=
  if s.job.status = .running then
    (s, .rejected "job already in progress")
  else
    let targets := files.getD s.scanned
    ({ s with
        job :=
          { total_files := targets.length
            analyzed_files := 0
            current_file := none
            status := .running
            error_message := none } },
     .accepted)

/-- **C3**: whenever the job is `running`, `start` — with an explicit
file list or with all files — is rejected with the signal
"job already in progress" and the whole state (job counters,
current file, status, and the cache contents) is returned unchanged. -/
theorem start_rejected_while_running (s : OrchestratorState)
    (files : Option (List String)) (h : s.job.status = .running) :
    (orchestratorStart s files).1 = s ∧
    (orchestratorStart s files).1.job = s.job ∧
    (orchestratorStart s files).1.cache = s.cache ∧
    (orchestratorStart s files).2 = .rejected "job already in progress" := by
  simp [orchestratorStart, h]

/-- Witness for `start_rejected_while_running` on a concrete running
state. -/
theorem start_rejected_while_running_witness :
    (OrchestratorState.mk ["a.py"] ⟨3, 1, some "a.py", .running, none⟩ []).job.status
        = .running ∧
    ((orchestratorStart
        (OrchestratorState.mk ["a.py"] ⟨3, 1, some "a.py", .running, none⟩ []) none).1
      = OrchestratorState.mk ["a.py"] ⟨3, 1, some "a.py", .running, none⟩ [] ∧
     (orchestratorStart
        (OrchestratorState.mk ["a.py"] ⟨3, 1, some "a.py", .running, none⟩ []) none).1.job
      = (OrchestratorState.mk ["a.py"] ⟨3, 1, some "a.py", .running, none⟩ []).job ∧
     (orchestratorStart
        (OrchestratorState.mk ["a.py"] ⟨3, 1, some "a.py", .running, none⟩ []) none).1.cache
      = (OrchestratorState.mk ["a.py"] ⟨3, 1, some "a.py", .running, none⟩ []).cache ∧
     (orchestratorStart
        (OrchestratorState.mk ["a.py"] ⟨3, 1, some "a.py", .running, none⟩ []) none).2
      = .rejected "job already in progress") :=
  ⟨rfl, start_rejected_while_running _ none rfl⟩

/-! ## C9 — the client progress-poll loop -/

/-- Events driving the polling `useEffect` of `CodeAnalyzer.tsx`.
`startAnalysis` is the success path of the start buttons
(`setIsAnalyzing(true)`, whereupon the effect installs the interval);
`tick` is one firing of the 1000 ms `setInterval` (issuing a progress
request); `respond p` is the body of `pollProgress` processing a
successful progress response `p`; `respondFail` is its `catch` path. -/
inductive PollEvent
  | startAnalysis
  | tick
  | respond (p : AnalysisProgress)
  | respondFail
  deriving Repr, DecidableEq

/-- The client-side state of the poll loop: the `isAnalyzing` flag, the
liveness of the interval, how many issued requests are not yet
processed (`inflight`), and counters of issued requests, completion
callbacks (`onAnalysisComplete`) and `fetchResults` calls, plus the last
`setProgress` value. -/
structure PollLoopState where
  isAnalyzing : Bool
  intervalActive : Bool
  inflight : Nat
  requests : Nat
  callbacks : Nat
  resultFetches : Nat
  progress : AnalysisProgress
  deriving Repr, DecidableEq

/-- One step of the poll loop, from `CodeAnalyzer.tsx`: a `tick` only
fires while the interval is installed; a response is only processed if
a request is in flight; on `completed` or `error` the handler does
`setIsAnalyzing(false); clearInterval(pollInterval)`, and on `completed`
additionally `await fetchResults()` and `onAnalysisComplete()`; the
`catch` path also resets the flag and clears the interval. -/
def pollStep (s : PollLoopState) (e : PollEvent) : PollLoopState :=
  match e with
  | .startAnalysis => { s with isAnalyzing := true, intervalActive := true }
  | .tick =>
    if s.intervalActive then
      { s with inflight := s.inflight + 1, requests := s.requests + 1 }
    else s
  | .respond p =>
    if s.inflight = 0 then s
    else
      let s1 := { s with inflight := s.inflight - 1, progress := p }
      if p.status = .completed then
        { s1 with
            isAnalyzing := false
            intervalActive := false
            resultFetches := s1.resultFetches + 1
            callbacks := s1.callbacks + 1 }
      else if p.status = .error then
        { s1 with isAnalyzing := false, intervalActive := false }
      else s1
  | .respondFail =>
    if s.inflight = 0 then s
    else
      { s with
          inflight := s.inflight - 1
          isAnalyzing := false
          intervalActive := false }

/-- Running the poll loop over a sequence of events. -/
def pollRun (s : PollLoopState) (tr : List PollEvent) : PollLoopState :=
  tr.foldl pollStep s

/-- The idle client state before any interaction. -/
def pollIdle : PollLoopState :=
  { isAnalyzing := false, intervalActive := false, inflight := 0,
    requests := 0, callbacks := 0, resultFetches := 0,
    progress := ⟨0, 0, none, .idle, none⟩ }

/-- A `completed` progress snapshot. -/
def donePoll : AnalysisProgress := ⟨3, 3, none, .completed, none⟩

/-- **C9** (counterexample): the 1000 ms interval can issue a second
progress request before the first response arrives; both in-flight
responses then observe `completed`, and each runs the completion branch
— `onAnalysisComplete` fires twice for one job, refuting "exactly once
per job".  (clearInterval stops only future requests, not responses
already in flight.) -/
theorem completion_callback_can_fire_twice :
    (pollRun pollIdle
        [.startAnalysis, .tick, .tick, .respond donePoll, .respond donePoll]).callbacks
      = 2 ∧ (2 : Nat) ≠ 1 := by
  constructor
  · decide
  · decide

/-- Helper: with the interval cleared, no event other than a new
`startAnalysis` ever issues a progress request again, and the interval
stays cleared; if moreover no response is still in flight, the whole
state is frozen. -/
theorem pollRun_frozen_after_clear (tr : List PollEvent) :
    ∀ s : PollLoopState, s.intervalActive = false →
      (∀ e ∈ tr, e ≠ .startAnalysis) →
      ((pollRun s tr).requests = s.requests ∧
       (pollRun s tr).intervalActive = false ∧
       (s.inflight = 0 → pollRun s tr = s)) := by
  induction tr with
  | nil => intro s hI _; exact ⟨rfl, hI, fun _ => rfl⟩
  | cons e tr ih =>
    intro s hI hno
    have hne : e ≠ .startAnalysis := hno e (List.mem_cons_self e tr)
    have hno' : ∀ e' ∈ tr, e' ≠ .startAnalysis := fun e' h' => hno e' (List.mem_cons_of_mem e h')
    match e with
    | .startAnalysis => exact absurd rfl hne
    | .tick =>
      have hstep : pollStep s .tick = s := by simp [pollStep, hI]
      have := ih s hI hno'
      simpa [pollRun, hstep] using this
    | .respond p =>
      by_cases h0 : s.inflight = 0
      · have hstep : pollStep s (.respond p) = s := by simp [pollStep, h0]
        have := ih s hI hno'
        simpa [pollRun, hstep] using this
      · set s' := pollStep s (.respond p) with hs'
        have hI' : s'.intervalActive = false := by
          simp only [hs', pollStep, if_neg h0]
          by_cases hc : p.status = .completed
          · simp [hc]
          · by_cases he : p.status = .error
            · simp [hc, he]
            · simp [hc, he, hI]
        have hreq : s'.requests = s.requests := by
          simp only [hs', pollStep, if_neg h0]
          by_cases hc : p.status = .completed
          · simp [hc]
          · by_cases he : p.status = .error
            · simp [hc, he]
            · simp [hc, he]
        have := ih s' hI' hno'
        refine ⟨by simpa [pollRun, hreq] using this.1, by simpa [pollRun] using this.2.1,
          fun h => absurd h h0⟩
    | .respondFail =>
      by_cases h0 : s.inflight = 0
      · have hstep : pollStep s .respondFail = s := by simp [pollStep, h0]
        have := ih s hI hno'
        simpa [pollRun, hstep] using this
      · set s' := pollStep s .respondFail with hs'
        have hI' : s'.intervalActive = false := by
          simp [hs', pollStep, h0]
        have hreq : s'.requests = s.requests := by
          simp [hs', pollStep, h0]
        have := ih s' hI' hno'
        refine ⟨by simpa [pollRun, hreq] using this.1, by simpa [pollRun] using this.2.1,
          fun h => absurd h h0⟩

/-- **C9** (amended): once a poll response is observed with status
`completed` or `error`, the interval is cleared and the analyzing flag
reset, and — until a new analysis is started — no further progress
request is ever issued; on `completed` the handler fetches the results
and invokes the completion callback exactly once *per completed
response*.  When that response was the only one in flight, the loop
state is thereafter frozen, so the callback fires exactly once per job;
with several responses in flight each may fire it (see the
counterexample). -/
theorem poll_loop_stops_after_terminal (s : PollLoopState) (p : AnalysisProgress)
    (hin : 0 < s.inflight)
    (hterm : p.status = .completed ∨ p.status = .error) :
    ((pollStep s (.respond p)).intervalActive = false ∧
     (pollStep s (.respond p)).isAnalyzing = false) ∧
    (p.status = .completed →
      (pollStep s (.respond p)).callbacks = s.callbacks + 1 ∧
      (pollStep s (.respond p)).resultFetches = s.resultFetches + 1) ∧
    (∀ tr : List PollEvent, (∀ e ∈ tr, e ≠ .startAnalysis) →
      (pollRun (pollStep s (.respond p)) tr).requests = (pollStep s (.respond p)).requests ∧
      ((pollStep s (.respond p)).inflight = 0 →
        (pollRun (pollStep s (.respond p)) tr).callbacks
          = (pollStep s (.respond p)).callbacks)) := by
  have h0 : ¬ s.inflight = 0 := Nat.pos_iff_ne_zero.mp hin
  have hI : (pollStep s (.respond p)).intervalActive = false := by
    simp only [pollStep, if_neg h0]
    rcases hterm with hc | he
    · simp [hc]
    · by_cases hc : p.status = .completed
      · simp [hc]
      · simp [hc, he]
  refine ⟨⟨hI, ?_⟩, ?_, ?_⟩
  · simp only [pollStep, if_neg h0]
    rcases hterm with hc | he
    · simp [hc]
    · by_cases hc : p.status = .completed
      · simp [hc]
      · simp [hc, he]
  · intro hc
    constructor <;> simp [pollStep, if_neg h0, hc]
  · intro tr hno
    have h := pollRun_frozen_after_clear tr (pollStep s (.respond p)) hI hno
    exact ⟨h.1, fun hz => by rw [h.2.2 hz]⟩

/-- Witness for `poll_loop_stops_after_terminal`: a single request in
flight, answered with `completed`, followed by further ticks and a
stray response. -/
theorem poll_loop_stops_after_terminal_witness :
    0 < (pollRun pollIdle [.startAnalysis, .tick]).inflight ∧
    (donePoll.status = .completed ∨ donePoll.status = .error) ∧
    (((pollStep (pollRun pollIdle [.startAnalysis, .tick]) (.respond donePoll)).intervalActive
        = false ∧
      (pollStep (pollRun pollIdle [.startAnalysis, .tick]) (.respond donePoll)).isAnalyzing
        = false) ∧
     (donePoll.status = .completed →
       (pollStep (pollRun pollIdle [.startAnalysis, .tick]) (.respond donePoll)).callbacks
         = (pollRun pollIdle [.startAnalysis, .tick]).callbacks + 1 ∧
       (pollStep (pollRun pollIdle [.startAnalysis, .tick]) (.respond donePoll)).resultFetches
         = (pollRun pollIdle [.startAnalysis, .tick]).resultFetches + 1) ∧
     (∀ tr : List PollEvent, (∀ e ∈ tr, e ≠ .startAnalysis) →
       (pollRun (pollStep (pollRun pollIdle [.startAnalysis, .tick]) (.respond donePoll))
           tr).requests
         = (pollStep (pollRun pollIdle [.startAnalysis, .tick]) (.respond donePoll)).requests ∧
       ((pollStep (pollRun pollIdle [.startAnalysis, .tick]) (.respond donePoll)).inflight = 0 →
         (pollRun (pollStep (pollRun pollIdle [.startAnalysis, .tick]) (.respond donePoll))
             tr).callbacks
           = (pollStep (pollRun pollIdle [.startAnalysis, .tick])
               (.respond donePoll)).callbacks))) :=
  ⟨by decide, by decide,
   poll_loop_stops_after_terminal (pollRun pollIdle [.startAnalysis, .tick]) donePoll
     (by decide) (by decide)⟩

/-! ## C6 — requirement lists never influence positions -/

/-- Two blocks agreeing on everything the layout reads — name, domain,
description, structural subblocks and persisted position — while their
requirement-id lists may differ arbitrarily. -/
def BlockAgree (b c : Block) : Prop :=
  b.name = c.name ∧ b.domain = c.domain ∧ b.description = c.description ∧
  b.subblocks = c.subblocks ∧ b.x = c.x ∧ b.y = c.y

/-- Two architectures agreeing on the root, the block ids (in order) and
on every block up to its requirement list. -/
def ArchAgree (a₁ a₂ : Architecture) : Prop :=
  a₁.root_id = a₂.root_id ∧
  List.Forall₂ (fun p q => p.1 = q.1 ∧ BlockAgree p.2 q.2) a₁.blocks a₂.blocks

/-- Two produced nodes agreeing on everything except the requirements
data field — in particular on the `(x, y)` coordinates. -/
def NodeAgree (n m : Node) : Prop :=
  n.id = m.id ∧ n.x = m.x ∧ n.y = m.y ∧ n.label = m.label ∧
  n.domain = m.domain ∧ n.description = m.description

/-- The structural sublist of an edge array. -/
def structuralOf (es : List Edge) : List Edge :=
  es.filter (fun e => !e.isReq)

/-- Second-pass states agreeing on everything the position computation
touches, with node lists related by `NodeAgree` and identical
structural-edge sublists. -/
def ProcAgree (s t : ProcState) : Prop :=
  s.processed = t.processed ∧ s.levelCounters = t.levelCounters ∧
  List.Forall₂ NodeAgree s.nodes t.nodes ∧
  structuralOf s.edges = structuralOf t.edges

/-- Congruence for `foldlM` over `Option` under pointwise equal step
functions. -/
theorem foldlM_option_congr {α β : Type} {f g : β → α → Option β}
    (h : ∀ s a, f s a = g s a) :
    ∀ (l : List α) (s : β), l.foldlM f s = l.foldlM g s := by
  intro l
  induction l with
  | nil => intro s; rfl
  | cons a l ih =>
    intro s
    simp only [List.foldlM_cons, h s a]
    cases g s a with
    | none => rfl
    | some s' => simp only [Option.bind_eq_bind, Option.some_bind]; exact ih s'

/-- Association-list lookup respects a `Forall₂` relation on entries. -/
theorem lookup_forall₂ {l₁ l₂ : List (String × Block)}
    (h : List.Forall₂ (fun p q => p.1 = q.1 ∧ BlockAgree p.2 q.2) l₁ l₂) (id : String) :
    (List.lookup id l₁ = none ∧ List.lookup id l₂ = none) ∨
    ∃ b c, List.lookup id l₁ = some b ∧ List.lookup id l₂ = some c ∧ BlockAgree b c := by
  induction h with
  | nil => exact Or.inl ⟨rfl, rfl⟩
  | cons hpq _ ih =>
    rename_i p q l₁ l₂ _
    obtain ⟨hk, hb⟩ := hpq
    obtain ⟨k, b⟩ := p
    obtain ⟨k', c⟩ := q
    simp only at hk hb
    subst hk
    by_cases hid : id == k
    · refine Or.inr ⟨b, c, ?_, ?_, hb⟩ <;> simp [List.lookup, hid]
    · have e1 : List.lookup id ((k, b) :: l₁) = List.lookup id l₁ := by
        simp [List.lookup, hid]
      have e2 : List.lookup id ((k, c) :: l₂) = List.lookup id l₂ := by
        simp [List.lookup, hid]
      rw [e1, e2]
      exact ih

/-- Under `ArchAgree`, a lookup either misses in both architectures or
hits blocks related by `BlockAgree`. -/
theorem lookup_agree {a₁ a₂ : Architecture} (h : ArchAgree a₁ a₂) (id : String) :
    (a₁.lookup id = none ∧ a₂.lookup id = none) ∨
    ∃ b c, a₁.lookup id = some b ∧ a₂.lookup id = some c ∧ BlockAgree b c :=
  lookup_forall₂ h.2 id

/-- Under `ArchAgree`, pass one — which reads only block ids and
subblock lists — computes identical results. -/
theorem countBlocksInLevel_agree {a₁ a₂ : Architecture} (h : ArchAgree a₁ a₂) :
    ∀ fuel id level st,
      countBlocksInLevel a₁ fuel id level st = countBlocksInLevel a₂ fuel id level st := by
  intro fuel
  induction fuel with
  | zero => intros; rfl
  | succ n ih =>
    intro id level st
    simp only [countBlocksInLevel]
    rcases lookup_agree h id with ⟨h1, h2⟩ | ⟨b, c, h1, h2, hbc⟩
    · rw [h1, h2]
    · rw [h1, h2]
      dsimp only
      rw [hbc.2.2.2.1]
      exact foldlM_option_congr (fun s sub => ih sub (level + 1) s) c.subblocks _

/-- Unfolding the emission loop of `crossEdgesForReq`: every produced
edge comes from the accumulator or from an entry sharing the
requirement. -/
theorem mem_crossEdges_aux (blockId reqId : String) :
    ∀ (l : List (String × Block)) (init : List Edge) (e : Edge),
      e ∈ l.foldl (fun acc ob =>
        if ob.1 ≠ blockId ∧ reqId ∈ ob.2.requirements then
          acc ++ [reqEdge blockId ob.1 reqId]
        else acc) init →
      e ∈ init ∨
        ∃ ob, ob ∈ l ∧ ob.1 ≠ blockId ∧ reqId ∈ ob.2.requirements ∧
          e = reqEdge blockId ob.1 reqId := by
  intro l
  induction l with
  | nil => intro init e he; exact Or.inl he
  | cons ob l ih =>
    intro init e he
    simp only [List.foldl_cons] at he
    by_cases hc : ob.1 ≠ blockId ∧ reqId ∈ ob.2.requirements
    · rw [if_pos hc] at he
      rcases ih _ e he with h' | ⟨ob', hm, h1, h2, h3⟩
      · rcases List.mem_append.mp h' with h'' | h''
        · exact Or.inl h''
        · exact Or.inr ⟨ob, List.mem_cons_self ob l, hc.1, hc.2, by simpa using h''⟩
      · exact Or.inr ⟨ob', List.mem_cons_of_mem _ hm, h1, h2, h3⟩
    · rw [if_neg hc] at he
      rcases ih _ e he with h' | ⟨ob', hm, h1, h2, h3⟩
      · exact Or.inl h'
      · exact Or.inr ⟨ob', List.mem_cons_of_mem _ hm, h1, h2, h3⟩

/-- Every cross-edge for `(blockId, reqId)` targets a distinct entry of
the blocks map whose requirement list contains `reqId`. -/
theorem mem_crossEdgesForReq {arch : Architecture} {blockId reqId : String} {e : Edge}
    (he : e ∈ crossEdgesForReq arch blockId reqId) :
    ∃ ob, ob ∈ arch.blocks ∧ ob.1 ≠ blockId ∧ reqId ∈ ob.2.requirements ∧
      e = reqEdge blockId ob.1 reqId := by
  unfold crossEdgesForReq at he
  rcases mem_crossEdges_aux blockId reqId arch.blocks [] e he with h | h
  · simp at h
  · exact h

/-- Unfolding the outer loop of `reqEdgesFor`. -/
theorem mem_reqEdges_aux (arch : Architecture) (blockId : String) :
    ∀ (l : List String) (init : List Edge) (e : Edge),
      e ∈ l.foldl (fun acc reqId => acc ++ crossEdgesForReq arch blockId reqId) init →
      e ∈ init ∨ ∃ reqId, reqId ∈ l ∧ e ∈ crossEdgesForReq arch blockId reqId := by
  intro l
  induction l with
  | nil => intro init e he; exact Or.inl he
  | cons r l ih =>
    intro init e he
    simp only [List.foldl_cons] at he
    rcases ih _ e he with h' | ⟨r', hm, h2⟩
    · rcases List.mem_append.mp h' with h'' | h''
      · exact Or.inl h''
      · exact Or.inr ⟨r, List.mem_cons_self r l, h''⟩
    · exact Or.inr ⟨r', List.mem_cons_of_mem _ hm, h2⟩

/-- Every edge of `reqEdgesFor` comes from some requirement of the
block. -/
theorem mem_reqEdgesFor {arch : Architecture} {blockId : String} {block : Block} {e : Edge}
    (he : e ∈ reqEdgesFor arch blockId block) :
    ∃ reqId, reqId ∈ block.requirements ∧ e ∈ crossEdgesForReq arch blockId reqId := by
  unfold reqEdgesFor at he
  rcases mem_reqEdges_aux arch blockId block.requirements [] e he with h | h
  · simp at h
  · exact h

/-- All edges of `reqEdgesFor` are cross-edges. -/
theorem reqEdgesFor_isReq {arch : Architecture} {blockId : String} {block : Block} :
    ∀ e ∈ reqEdgesFor arch blockId block, e.isReq = true := by
  intro e he
  obtain ⟨r, _, hc⟩ := mem_reqEdgesFor he
  obtain ⟨ob, _, _, _, he'⟩ := mem_crossEdgesForReq hc
  rw [he']; rfl

theorem structuralOf_append (es fs : List Edge) :
    structuralOf (es ++ fs) = structuralOf es ++ structuralOf fs :=
  List.filter_append es fs

/-- Cross-edges vanish from the structural sublist. -/
theorem structuralOf_reqEdgesFor {arch : Architecture} {blockId : String} {block : Block} :
    structuralOf (reqEdgesFor arch blockId block) = [] := by
  unfold structuralOf
  rw [List.filter_eq_nil_iff]
  intro e he
  simp [reqEdgesFor_isReq e he]

theorem structuralOf_structEdge (es : List Edge) (b s : String) :
    structuralOf (es ++ [structEdge b s]) = structuralOf es ++ [structEdge b s] := by
  rw [structuralOf_append]; rfl

/-- Nodes built from `BlockAgree`-related blocks agree on everything but
the requirements field — in particular on the final position. -/
theorem mkNode_agree {b c : Block} (hbc : BlockAgree b c) (id : String) (pos : ℚ × ℚ) :
    NodeAgree (mkNode id b pos) (mkNode id c pos) := by
  obtain ⟨h1, h2, h3, h4, h5, h6⟩ := hbc
  exact ⟨rfl, by simp [mkNode, h5], by simp [mkNode, h6], h1, h2, h3⟩

/-- Inversion for `Option.Rel` as a disjunction of equations. -/
theorem optionRel_cases {α β : Type} {r : α → β → Prop} {o₁ : Option α} {o₂ : Option β}
    (h : Option.Rel r o₁ o₂) :
    (o₁ = none ∧ o₂ = none) ∨ ∃ a b, o₁ = some a ∧ o₂ = some b ∧ r a b := by
  cases h with
  | none => exact Or.inl ⟨rfl, rfl⟩
  | some hab => exact Or.inr ⟨_, _, rfl, rfl, hab⟩

/-- `Option`-level simulation of the subblock loop. -/
theorem foldlM_rel (f₁ f₂ : ProcState → String → Option ProcState)
    (hstep : ∀ s t subId, ProcAgree s t → Option.Rel ProcAgree (f₁ s subId) (f₂ t subId)) :
    ∀ (l : List String) (s t : ProcState), ProcAgree s t →
      Option.Rel ProcAgree (l.foldlM f₁ s) (l.foldlM f₂ t) := by
  intro l
  induction l with
  | nil => intro s t hst; exact Option.Rel.some hst
  | cons a l ih =>
    intro s t hst
    simp only [List.foldlM_cons, Option.bind_eq_bind]
    have hrel := hstep s t a hst
    cases hf1 : f₁ s a with
    | none =>
      cases hf2 : f₂ t a with
      | none => rw [Option.none_bind, Option.none_bind]; exact Option.Rel.none
      | some t' => rw [hf1, hf2] at hrel; cases hrel
    | some s' =>
      cases hf2 : f₂ t a with
      | none => rw [hf1, hf2] at hrel; cases hrel
      | some t' =>
        rw [hf1, hf2] at hrel
        rw [Option.some_bind, Option.some_bind]
        cases hrel with
        | some hst' => exact ih s' t' hst'

/-- Under `ArchAgree` and from `ProcAgree`-related states, pass two
yields `ProcAgree`-related results: positions (and all structural
edges) are untouched by the requirement lists. -/
theorem processBlock_agree {a₁ a₂ : Architecture} (h : ArchAgree a₁ a₂)
    (levels : String → Option Nat) (perLevel : Nat → Nat) :
    ∀ fuel id s t, ProcAgree s t →
      Option.Rel ProcAgree
        (processBlock a₁ levels perLevel fuel id s)
        (processBlock a₂ levels perLevel fuel id t) := by
  intro fuel
  induction fuel with
  | zero => intro id s t _; exact Option.Rel.none
  | succ n ih =>
    intro id s t hst
    obtain ⟨hp, hc, hn, he⟩ := hst
    simp only [processBlock]
    rw [← hp, ← hc]
    by_cases hmem : id ∈ s.processed
    · rw [if_pos hmem, if_pos hmem]
      exact Option.Rel.some ⟨hp, hc, hn, he⟩
    · rw [if_neg hmem, if_neg hmem]
      rcases lookup_agree h id with ⟨h1, h2⟩ | ⟨b, c, h1, h2, hbc⟩
      · rw [h1, h2]
        exact Option.Rel.some ⟨rfl, rfl, hn, he⟩
      · rw [h1, h2]
        dsimp only
        rw [← hbc.2.2.2.1]
        have hst2 : ProcAgree
            { processed := id :: s.processed,
              levelCounters := fun l =>
                if l = (levels id).getD 0 then
                  s.levelCounters ((levels id).getD 0) + 1
                else s.levelCounters l,
              nodes := s.nodes ++
                [mkNode id b (calculatePosition id ((levels id).getD 0)
                  (s.levelCounters ((levels id).getD 0))
                  (perLevel ((levels id).getD 0)))],
              edges := s.edges }
            { processed := id :: s.processed,
              levelCounters := fun l =>
                if l = (levels id).getD 0 then
                  s.levelCounters ((levels id).getD 0) + 1
                else s.levelCounters l,
              nodes := t.nodes ++
                [mkNode id c (calculatePosition id ((levels id).getD 0)
                  (s.levelCounters ((levels id).getD 0))
                  (perLevel ((levels id).getD 0)))],
              edges := t.edges } :=
          ⟨rfl, rfl,
           List.rel_append hn
             (List.forall₂_cons.mpr ⟨mkNode_agree hbc id _, List.Forall₂.nil⟩), he⟩
        have hrel := foldlM_rel
          (fun s' subId =>
            processBlock a₁ levels perLevel n subId
              { s' with edges := s'.edges ++ [structEdge id subId] })
          (fun t' subId =>
            processBlock a₂ levels perLevel n subId
              { t' with edges := t'.edges ++ [structEdge id subId] })
          (fun s' t' subId hst' => by
            refine ih subId _ _ ⟨hst'.1, hst'.2.1, hst'.2.2.1, ?_⟩
            show structuralOf (s'.edges ++ [structEdge id subId])
              = structuralOf (t'.edges ++ [structEdge id subId])
            rw [structuralOf_structEdge, structuralOf_structEdge, hst'.2.2.2])
          b.subblocks _ _ hst2
        rcases optionRel_cases hrel with ⟨e1, e2⟩ | ⟨s3, t3, e1, e2, hst3⟩
        · rw [e1, e2]
          exact Option.Rel.none
        · rw [e1, e2]
          refine Option.Rel.some ⟨hst3.1, hst3.2.1, hst3.2.2.1, ?_⟩
          show structuralOf (s3.edges ++ reqEdgesFor a₁ id b)
            = structuralOf (t3.edges ++ reqEdgesFor a₂ id c)
          rw [structuralOf_append, structuralOf_append,
            structuralOf_reqEdgesFor, structuralOf_reqEdgesFor, hst3.2.2.2]

/-- An edge connecting two distinct blocks that share a requirement id:
its label is that requirement id, the source block carries it, and some
entry of the blocks map named by the target carries it too. -/
def SharesRequirement (arch : Architecture) (e : Edge) : Prop :=
  ∃ reqId srcBlock, e.label = some reqId ∧
    arch.lookup e.source = some srcBlock ∧ reqId ∈ srcBlock.requirements ∧
    (∃ ob, ob ∈ arch.blocks ∧ ob.1 = e.target ∧ reqId ∈ ob.2.requirements) ∧
    e.target ≠ e.source

/-- Every edge emitted by the requirement pass of a looked-up block
connects requirement sharers. -/
theorem reqEdgesFor_shares {arch : Architecture} {blockId : String} {block : Block}
    (hlook : arch.lookup blockId = some block) :
    ∀ e ∈ reqEdgesFor arch blockId block, SharesRequirement arch e := by
  intro e he
  obtain ⟨reqId, hr, hc⟩ := mem_reqEdgesFor he
  obtain ⟨ob, hob, hne, hreq, he'⟩ := mem_crossEdgesForReq hc
  subst he'
  exact ⟨reqId, block, rfl, hlook, hr, ⟨ob, hob, rfl, hreq⟩, hne⟩

/-- Invariant of pass two: every cross-edge ever emitted connects two
distinct blocks sharing the labelling requirement id. -/
theorem processBlock_edges_ok (arch : Architecture) (levels : String → Option Nat)
    (perLevel : Nat → Nat) :
    ∀ fuel id s s', processBlock arch levels perLevel fuel id s = some s' →
      (∀ e ∈ s.edges, e.isReq = true → SharesRequirement arch e) →
      ∀ e ∈ s'.edges, e.isReq = true → SharesRequirement arch e := by
  intro fuel
  induction fuel with
  | zero => intro id s s' hrun; cases hrun
  | succ n ih =>
    intro id s s' hrun hinv
    simp only [processBlock] at hrun
    by_cases hmem : id ∈ s.processed
    · rw [if_pos hmem] at hrun
      injection hrun with hrun
      subst hrun
      exact hinv
    · rw [if_neg hmem] at hrun
      cases hlook : arch.lookup id with
      | none =>
        rw [hlook] at hrun
        injection hrun with hrun
        subst hrun
        exact hinv
      | some block =>
        rw [hlook] at hrun
        dsimp only at hrun
        have hfold :
            ∀ (l : List String) (s₀ : ProcState),
              (∀ e ∈ s₀.edges, e.isReq = true → SharesRequirement arch e) →
              ∀ s₁, l.foldlM
                  (fun s' subId =>
                    processBlock arch levels perLevel n subId
                      { s' with edges := s'.edges ++ [structEdge id subId] }) s₀
                = some s₁ →
              ∀ e ∈ s₁.edges, e.isReq = true → SharesRequirement arch e := by
          intro l
          induction l with
          | nil =>
            intro s₀ h₀ s₁ heq
            injection heq with heq
            subst heq
            exact h₀
          | cons a l ihl =>
            intro s₀ h₀ s₁ heq
            simp only [List.foldlM_cons, Option.bind_eq_bind] at heq
            cases hfa : processBlock arch levels perLevel n a
                { s₀ with edges := s₀.edges ++ [structEdge id a] } with
            | none => rw [hfa] at heq; cases heq
            | some s₂ =>
              rw [hfa, Option.some_bind] at heq
              have h₀' : ∀ e ∈ s₀.edges ++ [structEdge id a],
                  e.isReq = true → SharesRequirement arch e := by
                intro e hme hre
                rcases List.mem_append.mp hme with hme | hme
                · exact h₀ e hme hre
                · simp only [List.mem_singleton] at hme
                  subst hme
                  cases hre
              have h₂ := ih a _ s₂ hfa h₀'
              exact ihl s₂ h₂ s₁ heq
        cases hf : List.foldlM
            (fun s' subId =>
              processBlock arch levels perLevel n subId
                { s' with edges := s'.edges ++ [structEdge id subId] })
            { processed := id :: s.processed,
              levelCounters := fun l =>
                if l = (levels id).getD 0 then
                  s.levelCounters ((levels id).getD 0) + 1
                else s.levelCounters l,
              nodes := s.nodes ++
                [mkNode id block (calculatePosition id ((levels id).getD 0)
                  (s.levelCounters ((levels id).getD 0))
                  (perLevel ((levels id).getD 0)))],
              edges := s.edges }
            block.subblocks with
        | none => rw [hf] at hrun; cases hrun
        | some st3 =>
          rw [hf] at hrun
          injection hrun with hrun
          subst hrun
          intro e hme hre
          rcases List.mem_append.mp hme with hme | hme
          · refine hfold block.subblocks _ ?_ st3 hf e hme hre
            intro e' he' hre'
            exact hinv e' he' hre'
          · exact reqEdgesFor_shares hlook e hme

/-- **C6**: requirement-sharing cross-edges never influence positions.
For two architectures agreeing on root, block ids, subblock edges and
persisted positions but with arbitrarily different requirement lists,
the layout produces nodes with identical `(x, y)` coordinates and
byte-identical structural edge lists; and every cross-edge produced
connects two distinct blocks sharing the labelling requirement id —
cross-edges are emitted in addition to, never instead of, the
structural edges. -/
theorem cross_edges_never_influence_layout (a₁ a₂ : Architecture)
    (h : ArchAgree a₁ a₂) (fuel : Nat) :
    Option.Rel
      (fun r₁ r₂ => List.Forall₂ NodeAgree r₁.1 r₂.1 ∧
        structuralOf r₁.2 = structuralOf r₂.2)
      (generateLayout a₁ fuel) (generateLayout a₂ fuel) ∧
    (∀ r, generateLayout a₁ fuel = some r →
      ∀ e ∈ r.2, e.isReq = true → SharesRequirement a₁ e) := by
  constructor
  · unfold generateLayout
    rw [← h.1, ← countBlocksInLevel_agree h fuel a₁.root_id 0 initCount]
    cases hc : countBlocksInLevel a₁ fuel a₁.root_id 0 initCount with
    | none => exact Option.Rel.none
    | some cst =>
      dsimp only
      have hrel := processBlock_agree h cst.blockLevels cst.blocksPerLevel fuel
        a₁.root_id initProc initProc ⟨rfl, rfl, List.Forall₂.nil, rfl⟩
      rcases optionRel_cases hrel with ⟨e1, e2⟩ | ⟨ps, pt, e1, e2, hst⟩
      · rw [e1, e2]; exact Option.Rel.none
      · rw [e1, e2]; exact Option.Rel.some ⟨hst.2.2.1, hst.2.2.2⟩
  · intro r hr e he hreq
    unfold generateLayout at hr
    cases hc : countBlocksInLevel a₁ fuel a₁.root_id 0 initCount with
    | none => rw [hc] at hr; cases hr
    | some cst =>
      rw [hc] at hr
      dsimp only at hr
      cases hp : processBlock a₁ cst.blockLevels cst.blocksPerLevel fuel
          a₁.root_id initProc with
      | none => rw [hp] at hr; cases hr
      | some pst =>
        rw [hp] at hr
        injection hr with hr
        subst hr
        refine processBlock_edges_ok a₁ cst.blockLevels cst.blocksPerLevel fuel
          a₁.root_id initProc pst hp ?_ e he hreq
        intro e' he'
        cases he'

/-- The witness architecture whose level-1 blocks share `RQ-1`. -/
def archReqA : Architecture :=
  { root_id := "R"
    blocks := [("R", { name := "Root", subblocks := ["A", "B"] }),
               ("A", { name := "A", requirements := ["RQ-1"] }),
               ("B", { name := "B", requirements := ["RQ-1"] })] }

/-- The same architecture with entirely different requirement lists. -/
def archReqB : Architecture :=
  { root_id := "R"
    blocks := [("R", { name := "Root", subblocks := ["A", "B"] }),
               ("A", { name := "A" }),
               ("B", { name := "B", requirements := ["RQ-2"] })] }

/-- Witness for `cross_edges_never_influence_layout` on `archReqA` and
`archReqB`. -/
theorem cross_edges_never_influence_layout_witness :
    ArchAgree archReqA archReqB ∧
    (Option.Rel
      (fun r₁ r₂ => List.Forall₂ NodeAgree r₁.1 r₂.1 ∧
        structuralOf r₁.2 = structuralOf r₂.2)
      (generateLayout archReqA 5) (generateLayout archReqB 5) ∧
    (∀ r, generateLayout archReqA 5 = some r →
      ∀ e ∈ r.2, e.isReq = true → SharesRequirement archReqA e)) := by
  have hagree : ArchAgree archReqA archReqB := by
    refine ⟨rfl, ?_⟩
    simp [archReqA, archReqB, List.forall₂_cons, BlockAgree]
  exact ⟨hagree, cross_edges_never_influence_layout archReqA archReqB hagree 5⟩

/-! ## C8 — domain configuration editing (SettingsDialog.tsx) -/

/-- The `DomainConfig` interface of `SettingsDialog.tsx`: name,
description, optional `parent_domain`, and the `subdomain_ids` list. -/
structure DomainConfig where
  name : String
  description : String
  parent_domain : Option String
  subdomain_ids : List String
  deriving Repr, DecidableEq

/-- `settings.domains`, the string-keyed map of domain configurations. -/
abbrev DomainMap := String → Option DomainConfig

/-- `domains[k] = v` — JS property assignment on the domains map. -/
def setDomain (m : DomainMap) (k : String) (v : DomainConfig) : DomainMap :=
  fun x => if x = k then some v else m x

/-- `handleAddDomain` of `SettingsDialog.tsx`: guarded by
`newDomainId && !settings.domains[newDomainId]`, it inserts the new
domain (name defaulted to the id, parent `newDomainParent || undefined`,
empty `subdomain_ids`), and — when the parent names an existing domain —
appends the new id to that parent's `subdomain_ids`. -/
def handleAddDomain (m : DomainMap)
    (newDomainId newDomainName newDomainDescription newDomainParent : String) :
    DomainMap :=
  if newDomainId ≠ "" ∧ m newDomainId = none then
    let d1 := setDomain m newDomainId
      { name := if newDomainName ≠ "" then newDomainName else newDomainId
        description := newDomainDescription
        parent_domain := if newDomainParent = "" then none else some newDomainParent
        subdomain_ids := [] }
    if newDomainParent ≠ "" ∧ (m newDomainParent).isSome then
      match d1 newDomainParent with
      | some pc => setDomain d1 newDomainParent
          { pc with subdomain_ids := pc.subdomain_ids ++ [newDomainId] }
      | none => d1
    else d1
  else m

/-- The final `forEach` of `handleRemoveDomain`: clear `parent_domain`
on every remaining domain that pointed at the removed id. -/
def removeClear (domainId : String) (o : Option DomainConfig) : Option DomainConfig :=
  match o with
  | some c =>
    if c.parent_domain = some domainId then some { c with parent_domain := none }
    else some c
  | none => none

/-- `handleRemoveDomain` of `SettingsDialog.tsx`: destructure the map
into the removed domain and the rest, drop the removed id from its
parent's `subdomain_ids` (when the parent exists), then clear
`parent_domain` on all children of the removed domain.  (On an id not
in the map the JS code would throw; the embedding returns the map
unchanged — the claim only removes existing domains.) -/
def handleRemoveDomain (m : DomainMap) (domainId : String) : DomainMap :=
  match m domainId with
  | none => m
  | some removedDomain =>
    let remaining : DomainMap := fun k => if k = domainId then none else m k
    let remaining2 : DomainMap :=
      match removedDomain.parent_domain with
      | some p =>
        match m p with
        | some parentDomain =>
          setDomain remaining p
            { parentDomain with subdomain_ids :=
                parentDomain.subdomain_ids.filter (fun i => i ≠ domainId) }
        | none => remaining
      | none => remaining
    fun k => removeClear domainId (remaining2 k)

/-- Every subdomain id names an existing domain whose `parent_domain`
points back at the listing parent. -/
def ChildrenClosed (m : DomainMap) : Prop :=
  ∀ p pc, m p = some pc → ∀ c ∈ pc.subdomain_ids,
    ∃ cc, m c = some cc ∧ cc.parent_domain = some p

/-- Every `parent_domain` reference names an existing domain whose
`subdomain_ids` list contains the child. -/
def ParentLinked (m : DomainMap) : Prop :=
  ∀ c cc p, m c = some cc → cc.parent_domain = some p →
    ∃ pc, m p = some pc ∧ c ∈ pc.subdomain_ids

/-- One step of the parent-pointer graph. -/
def ParentStep (m : DomainMap) (c p : String) : Prop :=
  ∃ cc, m c = some cc ∧ cc.parent_domain = some p

/-- No cycles in the parent-pointer graph. -/
def AcyclicDomains (m : DomainMap) : Prop :=
  ∀ x, ¬ Relation.TransGen (ParentStep m) x x

/-- The three forest invariants of the domains map. -/
def DomainForest (m : DomainMap) : Prop :=
  ChildrenClosed m ∧ ParentLinked m ∧ AcyclicDomains m

/-- A relation with no steps at all is acyclic. -/
theorem acyclic_of_no_step {r : String → String → Prop} (h : ∀ a b, ¬ r a b) :
    ∀ x, ¬ Relation.TransGen r x x := by
  intro x hx
  obtain ⟨c, _, hcx⟩ := Relation.TransGen.tail'_iff.mp hx
  exact h c x hcx

/-- A subrelation of an acyclic relation is acyclic. -/
theorem acyclic_mono {r r' : String → String → Prop}
    (hsub : ∀ a b, r' a b → r a b)
    (hr : ∀ x, ¬ Relation.TransGen r x x) :
    ∀ x, ¬ Relation.TransGen r' x x :=
  fun x hx => hr x (hx.mono hsub)

/-- Extending an acyclic relation at a fresh vertex `v` — edges out of
`v` allowed, no edge into `v` — keeps it acyclic. -/
theorem acyclic_fresh {r r' : String → String → Prop} (v : String)
    (hout : ∀ a b, r' a b → a ≠ v → r a b)
    (hin : ∀ a, ¬ r' a v)
    (hr : ∀ x, ¬ Relation.TransGen r x x) :
    ∀ x, ¬ Relation.TransGen r' x x := by
  have haux : ∀ x y, Relation.TransGen r' x y → x ≠ v → Relation.TransGen r x y := by
    intro x y hxy
    induction hxy with
    | single h => exact fun hx => Relation.TransGen.single (hout _ _ h hx)
    | tail hxb hby ih =>
      intro hx
      rename_i b c
      have hbv : b ≠ v := by
        intro hbv
        subst hbv
        obtain ⟨c', _, hcv⟩ := Relation.TransGen.tail'_iff.mp hxb
        exact hin c' hcv
      exact Relation.TransGen.tail (ih hx) (hout _ _ hby hbv)
  intro x hx
  by_cases hxv : x = v
  · subst hxv
    obtain ⟨c, _, hcv⟩ := Relation.TransGen.tail'_iff.mp hx
    exact hin c hcv
  · exact hr x (haux x x hx hxv)

theorem handleAddDomain_eq_noParent {m : DomainMap} {nid name desc : String}
    (hid : nid ≠ "") (hnew : m nid = none) :
    handleAddDomain m nid name desc ""
      = setDomain m nid
          { name := if name ≠ "" then name else nid, description := desc,
            parent_domain := none, subdomain_ids := [] } := by
  unfold handleAddDomain
  rw [if_pos ⟨hid, hnew⟩]
  simp

theorem handleAddDomain_eq_parent {m : DomainMap} {nid name desc parent : String}
    {pc : DomainConfig}
    (hid : nid ≠ "") (hnew : m nid = none) (hp : parent ≠ "") (hpc : m parent = some pc) :
    handleAddDomain m nid name desc parent
      = setDomain
          (setDomain m nid
            { name := if name ≠ "" then name else nid, description := desc,
              parent_domain := some parent, subdomain_ids := [] })
          parent { pc with subdomain_ids := pc.subdomain_ids ++ [nid] } := by
  have hpi : parent ≠ nid := by
    intro h
    rw [h, hnew] at hpc
    cases hpc
  unfold handleAddDomain
  rw [if_pos ⟨hid, hnew⟩]
  have hcond : parent ≠ "" ∧ (m parent).isSome := ⟨hp, by simp [hpc]⟩
  rw [if_pos hcond]
  have hd1 : setDomain m nid
      { name := if name ≠ "" then name else nid, description := desc,
        parent_domain := if parent = "" then none else some parent,
        subdomain_ids := [] } parent = some pc := by
    simp [setDomain, hpi, hpc]
  rw [hd1]
  simp [hp]

theorem handleRemoveDomain_eq_noParent {m : DomainMap} {did : String} {rd : DomainConfig}
    (hdid : m did = some rd) (hrp : rd.parent_domain = none) :
    handleRemoveDomain m did
      = fun k => removeClear did (if k = did then none else m k) := by
  unfold handleRemoveDomain
  rw [hdid]
  simp [hrp]

theorem handleRemoveDomain_eq_parent {m : DomainMap} {did p : String}
    {rd pcp : DomainConfig}
    (hdid : m did = some rd) (hrp : rd.parent_domain = some p) (hpc : m p = some pcp) :
    handleRemoveDomain m did
      = fun k => removeClear did
          (if k = p then
            some { pcp with subdomain_ids := pcp.subdomain_ids.filter (fun i => i ≠ did) }
          else if k = did then none else m k) := by
  unfold handleRemoveDomain
  rw [hdid]
  simp only [hrp, hpc]
  funext k
  simp [setDomain]

theorem add_preserves_forest {m : DomainMap} {nid name desc parent : String}
    (hf : DomainForest m) (hid : nid ≠ "") (hnew : m nid = none)
    (hpar : parent = "" ∨ (m parent).isSome) :
    DomainForest (handleAddDomain m nid name desc parent) := by
  obtain ⟨hcc, hpl, hac⟩ := hf
  by_cases hpe : parent = ""
  · subst hpe
    rw [handleAddDomain_eq_noParent hid hnew]
    refine ⟨?_, ?_, ?_⟩
    · intro p pc hp c hc
      by_cases hpid : p = nid
      · subst hpid
        simp only [setDomain, if_pos rfl] at hp
        injection hp with hp
        rw [← hp] at hc
        simp at hc
      · have hp' : m p = some pc := by
          simpa [setDomain, hpid] using hp
        obtain ⟨cc, hmc, hcp⟩ := hcc p pc hp' c hc
        have hcid : c ≠ nid := fun h => by rw [h, hnew] at hmc; cases hmc
        exact ⟨cc, by simpa [setDomain, hcid] using hmc, hcp⟩
    · intro c cc p hc hcp
      by_cases hcid : c = nid
      · subst hcid
        simp only [setDomain, if_pos rfl] at hc
        injection hc with hc
        rw [← hc] at hcp
        cases hcp
      · have hc' : m c = some cc := by simpa [setDomain, hcid] using hc
        obtain ⟨pc, hp', hmem⟩ := hpl c cc p hc' hcp
        have hpid : p ≠ nid := fun h => by rw [h, hnew] at hp'; cases hp'
        exact ⟨pc, by simpa [setDomain, hpid] using hp', hmem⟩
    · refine acyclic_fresh nid ?_ ?_ hac
      · rintro a b ⟨cc, hca, hcp⟩ haid
        exact ⟨cc, by simpa [setDomain, haid] using hca, hcp⟩
      · rintro a ⟨cc, hca, hcp⟩
        by_cases haid : a = nid
        · subst haid
          simp only [setDomain, if_pos rfl] at hca
          injection hca with hca
          rw [← hca] at hcp
          cases hcp
        · have hca' : m a = some cc := by simpa [setDomain, haid] using hca
          obtain ⟨pc, hp', _⟩ := hpl a cc nid hca' hcp
          rw [hnew] at hp'
          cases hp'
  · have hps : (m parent).isSome := hpar.resolve_left hpe
    obtain ⟨pc, hpc⟩ := Option.isSome_iff_exists.mp hps
    rw [handleAddDomain_eq_parent hid hnew hpe hpc]
    have hpi : parent ≠ nid := by
      intro h
      rw [h, hnew] at hpc
      cases hpc
    have hAp : setDomain
        (setDomain m nid
          { name := if name ≠ "" then name else nid, description := desc,
            parent_domain := some parent, subdomain_ids := [] })
        parent { pc with subdomain_ids := pc.subdomain_ids ++ [nid] } parent
        = some { pc with subdomain_ids := pc.subdomain_ids ++ [nid] } := by
      simp [setDomain]
    have hAid : setDomain
        (setDomain m nid
          { name := if name ≠ "" then name else nid, description := desc,
            parent_domain := some parent, subdomain_ids := [] })
        parent { pc with subdomain_ids := pc.subdomain_ids ++ [nid] } nid
        = some
            { name := if name ≠ "" then name else nid, description := desc,
              parent_domain := some parent, subdomain_ids := [] } := by
      simp [setDomain, Ne.symm hpi]
    have hAother : ∀ k, k ≠ parent → k ≠ nid → setDomain
        (setDomain m nid
          { name := if name ≠ "" then name else nid, description := desc,
            parent_domain := some parent, subdomain_ids := [] })
        parent { pc with subdomain_ids := pc.subdomain_ids ++ [nid] } k = m k := by
      intro k h1 h2
      simp [setDomain, h1, h2]
    refine ⟨?_, ?_, ?_⟩
    · intro p' pc₀ hp' c hc
      by_cases h1 : parent = p'
      · subst h1
        rw [hAp] at hp'
        injection hp' with hp'
        rw [← hp'] at hc
        rcases List.mem_append.mp hc with hcl | hcr
        · obtain ⟨cc, hmc, hcp⟩ := hcc parent pc hpc c hcl
          have hcid : c ≠ nid := fun h => by rw [h, hnew] at hmc; cases hmc
          by_cases hcpar : parent = c
          · subst hcpar
            rw [hpc] at hmc
            injection hmc with hmc
            refine ⟨_, hAp, ?_⟩
            show pc.parent_domain = some parent
            rw [← hmc] at hcp
            exact hcp
          · refine ⟨cc, ?_, hcp⟩
            rw [hAother c (fun h => hcpar h.symm) hcid]
            exact hmc
        · simp only [List.mem_singleton] at hcr
          subst hcr
          exact ⟨_, hAid, rfl⟩
      · by_cases h2 : nid = p'
        · subst h2
          rw [hAid] at hp'
          injection hp' with hp'
          rw [← hp'] at hc
          simp at hc
        · rw [hAother p' (fun h => h1 h.symm) (fun h => h2 h.symm)] at hp'
          obtain ⟨cc, hmc, hcp⟩ := hcc p' pc₀ hp' c hc
          have hcid : c ≠ nid := fun h => by rw [h, hnew] at hmc; cases hmc
          by_cases hcpar : parent = c
          · subst hcpar
            rw [hpc] at hmc
            injection hmc with hmc
            refine ⟨_, hAp, ?_⟩
            show pc.parent_domain = some p'
            rw [← hmc] at hcp
            exact hcp
          · refine ⟨cc, ?_, hcp⟩
            rw [hAother c (fun h => hcpar h.symm) hcid]
            exact hmc
    · intro c cc₀ p' hc hcp
      by_cases h1 : parent = c
      · subst h1
        rw [hAp] at hc
        injection hc with hc
        have hcp2 : pc.parent_domain = some p' := by
          rw [← hc] at hcp
          exact hcp
        obtain ⟨qc, hq, hmem⟩ := hpl parent pc p' hpc hcp2
        have hp'id : p' ≠ nid := fun h => by rw [h, hnew] at hq; cases hq
        by_cases hp'par : parent = p'
        · subst hp'par
          rw [hpc] at hq
          injection hq with hq
          subst hq
          exact ⟨_, hAp, List.mem_append_left _ hmem⟩
        · refine ⟨qc, ?_, hmem⟩
          rw [hAother p' (fun h => hp'par h.symm) hp'id]
          exact hq
      · by_cases h2 : nid = c
        · subst h2
          rw [hAid] at hc
          injection hc with hc
          have hcp2 : some parent = some p' := by
            rw [← hc] at hcp
            exact hcp
          injection hcp2 with hcp2
          subst hcp2
          exact ⟨_, hAp, List.mem_append_right _ (by simp)⟩
        · rw [hAother c (fun h => h1 h.symm) (fun h => h2 h.symm)] at hc
          obtain ⟨qc, hq, hmem⟩ := hpl c cc₀ p' hc hcp
          have hp'id : p' ≠ nid := fun h => by rw [h, hnew] at hq; cases hq
          by_cases hp'par : parent = p'
          · subst hp'par
            rw [hpc] at hq
            injection hq with hq
            subst hq
            exact ⟨_, hAp, List.mem_append_left _ hmem⟩
          · refine ⟨qc, ?_, hmem⟩
            rw [hAother p' (fun h => hp'par h.symm) hp'id]
            exact hq
    · refine acyclic_fresh nid ?_ ?_ hac
      · rintro a b ⟨cc, hca, hcp⟩ haid
        by_cases hapar : parent = a
        · subst hapar
          rw [hAp] at hca
          injection hca with hca
          refine ⟨pc, hpc, ?_⟩
          rw [← hca] at hcp
          exact hcp
        · rw [hAother a (fun h => hapar h.symm) haid] at hca
          exact ⟨cc, hca, hcp⟩
      · rintro a ⟨cc, hca, hcp⟩
        by_cases hapar : parent = a
        · subst hapar
          rw [hAp] at hca
          injection hca with hca
          have hcp2 : pc.parent_domain = some nid := by
            rw [← hca] at hcp
            exact hcp
          obtain ⟨qc, hq, _⟩ := hpl parent pc nid hpc hcp2
          rw [hnew] at hq
          cases hq
        · by_cases haid : nid = a
          · subst haid
            rw [hAid] at hca
            injection hca with hca
            have hcp2 : some parent = some nid := by
              rw [← hca] at hcp
              exact hcp
            injection hcp2 with hcp2
            exact hpi hcp2
          · rw [hAother a (fun h => hapar h.symm) (fun h => haid h.symm)] at hca
            obtain ⟨qc, hq, _⟩ := hpl a cc nid hca hcp
            rw [hnew] at hq
            cases hq

def clearCfg (did : String) (c : DomainConfig) : DomainConfig :=
  if c.parent_domain = some did then { c with parent_domain := none } else c

theorem removeClear_some (did : String) (c : DomainConfig) :
    removeClear did (some c) = some (clearCfg did c) := by
  by_cases h : c.parent_domain = some did <;> simp [removeClear, clearCfg, h]

theorem clearCfg_subs (did : String) (c : DomainConfig) :
    (clearCfg did c).subdomain_ids = c.subdomain_ids := by
  unfold clearCfg
  split <;> rfl

theorem clearCfg_parent_ne {did : String} {c : DomainConfig} {q : String}
    (h : (clearCfg did c).parent_domain = some q) :
    c.parent_domain = some q ∧ q ≠ did := by
  unfold clearCfg at h
  split at h
  · cases h
  · rename_i hne
    refine ⟨h, fun hq => hne ?_⟩
    rw [← hq]
    exact h

theorem clearCfg_of_ne {did : String} {c : DomainConfig}
    (h : c.parent_domain ≠ some did) : clearCfg did c = c := if_neg h

theorem clearCfg_of_eq {did : String} {c : DomainConfig}
    (h : c.parent_domain = some did) :
    clearCfg did c = { c with parent_domain := none } := if_pos h

theorem remove_preserves_forest {m : DomainMap} {did : String}
    (hf : DomainForest m) :
    DomainForest (handleRemoveDomain m did) ∧
    (∀ rd, m did = some rd →
      handleRemoveDomain m did did = none ∧
      (∀ p₀ pc₀, rd.parent_domain = some p₀ → m p₀ = some pc₀ →
        ∃ pc', handleRemoveDomain m did p₀ = some pc' ∧ did ∉ pc'.subdomain_ids) ∧
      (∀ c cc, m c = some cc → c ≠ did → cc.parent_domain = some did →
        ∃ cc', handleRemoveDomain m did c = some cc' ∧ cc'.parent_domain = none)) := by
  obtain ⟨hcc, hpl, hac⟩ := hf
  cases hdid : m did with
  | none =>
    have heq : handleRemoveDomain m did = m := by
      unfold handleRemoveDomain
      rw [hdid]
    refine ⟨by rw [heq]; exact ⟨hcc, hpl, hac⟩, ?_⟩
    intro rd hrd
    cases hrd
  | some rd =>
    cases hrp : rd.parent_domain with
    | none =>
      have hR : ∀ k, handleRemoveDomain m did k
          = removeClear did (if k = did then none else m k) :=
        fun k => congrFun (handleRemoveDomain_eq_noParent hdid hrp) k
      have hRdid : handleRemoveDomain m did did = none := by
        rw [hR did, if_pos rfl]
        rfl
      have hRother : ∀ k, k ≠ did →
          handleRemoveDomain m did k = removeClear did (m k) :=
        fun k h => by rw [hR k, if_neg h]
      refine ⟨⟨?_, ?_, ?_⟩, ?_⟩
      · intro q qc hq' c hc
        have hqd : q ≠ did := fun h => by rw [h, hRdid] at hq'; cases hq'
        rw [hRother q hqd] at hq'
        cases hmq : m q with
        | none => rw [hmq] at hq'; simp [removeClear] at hq'
        | some qm =>
          rw [hmq, removeClear_some] at hq'
          injection hq' with hq'
          subst hq'
          rw [clearCfg_subs] at hc
          obtain ⟨cc, hmc, hcp⟩ := hcc q qm hmq c hc
          have hcd : c ≠ did := by
            intro h
            rw [h, hdid] at hmc
            injection hmc with h2
            rw [← h2, hrp] at hcp
            cases hcp
          have hne : cc.parent_domain ≠ some did := by
            rw [hcp]
            exact fun h => hqd (Option.some.inj h)
          refine ⟨cc, ?_, hcp⟩
          rw [hRother c hcd, hmc, removeClear_some, clearCfg_of_ne hne]
      · intro c cc₀ q hc hcq
        have hcd : c ≠ did := fun h => by rw [h, hRdid] at hc; cases hc
        rw [hRother c hcd] at hc
        cases hmc : m c with
        | none => rw [hmc] at hc; simp [removeClear] at hc
        | some cm =>
          rw [hmc, removeClear_some] at hc
          injection hc with hc
          subst hc
          obtain ⟨hcmq, hqd⟩ := clearCfg_parent_ne hcq
          obtain ⟨qc, hq2, hmem⟩ := hpl c cm q hmc hcmq
          refine ⟨clearCfg did qc, ?_, ?_⟩
          · rw [hRother q hqd, hq2, removeClear_some]
          · rw [clearCfg_subs]
            exact hmem
      · refine acyclic_mono ?_ hac
        rintro a b ⟨cc₀, ha, hb⟩
        have had : a ≠ did := fun h => by rw [h, hRdid] at ha; cases ha
        rw [hRother a had] at ha
        cases hma : m a with
        | none => rw [hma] at ha; simp [removeClear] at ha
        | some am =>
          rw [hma, removeClear_some] at ha
          injection ha with ha
          rw [← ha] at hb
          obtain ⟨hb2, _⟩ := clearCfg_parent_ne hb
          exact ⟨am, hma, hb2⟩
      · intro rd' hrd'
        injection hrd' with hrd'
        subst hrd'
        refine ⟨hRdid, ?_, ?_⟩
        · intro p₀ pc₀ hrp₀ _
          rw [hrp] at hrp₀
          cases hrp₀
        · intro c cc hmc hcd hcp
          refine ⟨_, by rw [hRother c hcd, hmc, removeClear_some], ?_⟩
          rw [clearCfg_of_eq hcp]
    | some p =>
      have hstep_dp : ParentStep m did p := ⟨rd, hdid, hrp⟩
      have hpd : p ≠ did := fun h =>
        hac did (Relation.TransGen.single (h ▸ hstep_dp))
      obtain ⟨pcp, hq, hmemd⟩ := hpl did rd p hdid hrp
      have hppd : pcp.parent_domain ≠ some did := by
        intro hx
        exact hac did
          (Relation.TransGen.tail (Relation.TransGen.single hstep_dp) ⟨pcp, hq, hx⟩)
      have hR : ∀ k, handleRemoveDomain m did k
          = removeClear did (if k = p then
              some { pcp with subdomain_ids :=
                pcp.subdomain_ids.filter (fun i => i ≠ did) }
            else if k = did then none else m k) :=
        fun k => congrFun (handleRemoveDomain_eq_parent hdid hrp hq) k
      have hppd2 : ({ pcp with subdomain_ids :=
          pcp.subdomain_ids.filter (fun i => i ≠ did) } : DomainConfig).parent_domain
          ≠ some did := hppd
      have hRp : handleRemoveDomain m did p
          = some { pcp with subdomain_ids :=
              pcp.subdomain_ids.filter (fun i => i ≠ did) } := by
        rw [hR p, if_pos rfl, removeClear_some, clearCfg_of_ne hppd2]
      have hRdid : handleRemoveDomain m did did = none := by
        rw [hR did, if_neg (fun h => hpd h.symm), if_pos rfl]
        rfl
      have hRother : ∀ k, k ≠ p → k ≠ did →
          handleRemoveDomain m did k = removeClear did (m k) :=
        fun k h1 h2 => by rw [hR k, if_neg h1, if_neg h2]
      refine ⟨⟨?_, ?_, ?_⟩, ?_⟩
      · intro q qc hq' c hc
        have hqd : q ≠ did := fun h => by rw [h, hRdid] at hq'; cases hq'
        by_cases hqp : q = p
        · rw [hqp, hRp] at hq'
          injection hq' with hq'
          subst hq'
          dsimp only at hc
          rw [List.mem_filter] at hc
          obtain ⟨cc, hmc, hcp⟩ := hcc p pcp hq c hc.1
          have hcd : c ≠ did := by simpa using hc.2
          by_cases hcp2 : c = p
          · exfalso
            rw [hcp2, hq] at hmc
            injection hmc with h2
            rw [← h2] at hcp
            exact hac p (Relation.TransGen.single ⟨pcp, hq, hcp⟩)
          · have hne : cc.parent_domain ≠ some did := by
              rw [hcp]
              exact fun h => hpd (Option.some.inj h)
            refine ⟨cc, ?_, ?_⟩
            · rw [hRother c hcp2 hcd, hmc, removeClear_some, clearCfg_of_ne hne]
            · rw [hqp]
              exact hcp
        · rw [hRother q hqp hqd] at hq'
          cases hmq : m q with
          | none => rw [hmq] at hq'; simp [removeClear] at hq'
          | some qm =>
            rw [hmq, removeClear_some] at hq'
            injection hq' with hq'
            subst hq'
            rw [clearCfg_subs] at hc
            obtain ⟨cc, hmc, hcp⟩ := hcc q qm hmq c hc
            have hcd : c ≠ did := by
              intro h
              rw [h, hdid] at hmc
              injection hmc with h2
              rw [← h2, hrp] at hcp
              injection hcp with h3
              exact hqp h3.symm
            by_cases hcp2 : c = p
            · rw [hcp2, hq] at hmc
              injection hmc with h2
              refine ⟨_, by rw [hcp2]; exact hRp, ?_⟩
              show pcp.parent_domain = some q
              rw [h2]
              exact hcp
            · have hne : cc.parent_domain ≠ some did := by
                rw [hcp]
                exact fun h => hqd (Option.some.inj h)
              refine ⟨cc, ?_, hcp⟩
              rw [hRother c hcp2 hcd, hmc, removeClear_some, clearCfg_of_ne hne]
      · intro c cc₀ q hc hcq
        have hcd : c ≠ did := fun h => by rw [h, hRdid] at hc; cases hc
        by_cases hcp2 : c = p
        · rw [hcp2, hRp] at hc
          injection hc with hc
          subst hc
          have hcq2 : pcp.parent_domain = some q := hcq
          have hqd : q ≠ did := by
            intro h
            rw [h] at hcq2
            exact hppd hcq2
          obtain ⟨qc, hq2, hmem⟩ := hpl p pcp q hq hcq2
          have hqp : q ≠ p := by
            intro h
            rw [h] at hcq2
            exact hac p (Relation.TransGen.single ⟨pcp, hq, hcq2⟩)
          refine ⟨clearCfg did qc, ?_, ?_⟩
          · rw [hRother q hqp hqd, hq2, removeClear_some]
          · rw [clearCfg_subs, hcp2]
            exact hmem
        · rw [hRother c hcp2 hcd] at hc
          cases hmc : m c with
          | none => rw [hmc] at hc; simp [removeClear] at hc
          | some cm =>
            rw [hmc, removeClear_some] at hc
            injection hc with hc
            subst hc
            obtain ⟨hcmq, hqd⟩ := clearCfg_parent_ne hcq
            obtain ⟨qc, hq2, hmem⟩ := hpl c cm q hmc hcmq
            by_cases hqp : q = p
            · rw [hqp, hq] at hq2
              injection hq2 with h2
              refine ⟨_, by rw [hqp]; exact hRp, ?_⟩
              show c ∈ pcp.subdomain_ids.filter (fun i => i ≠ did)
              rw [List.mem_filter]
              refine ⟨by rw [h2]; exact hmem, by simpa using hcd⟩
            · refine ⟨clearCfg did qc, ?_, ?_⟩
              · rw [hRother q hqp hqd, hq2, removeClear_some]
              · rw [clearCfg_subs]
                exact hmem
      · refine acyclic_mono ?_ hac
        rintro a b ⟨cc₀, ha, hb⟩
        have had : a ≠ did := fun h => by rw [h, hRdid] at ha; cases ha
        by_cases hap : a = p
        · rw [hap, hRp] at ha
          injection ha with ha
          rw [← ha] at hb
          have hb2 : pcp.parent_domain = some b := hb
          exact ⟨pcp, by rw [hap]; exact hq, hb2⟩
        · rw [hRother a hap had] at ha
          cases hma : m a with
          | none => rw [hma] at ha; simp [removeClear] at ha
          | some am =>
            rw [hma, removeClear_some] at ha
            injection ha with ha
            rw [← ha] at hb
            obtain ⟨hb2, _⟩ := clearCfg_parent_ne hb
            exact ⟨am, hma, hb2⟩
      · intro rd' hrd'
        injection hrd' with hrd'
        subst hrd'
        refine ⟨hRdid, ?_, ?_⟩
        · intro p₀ pc₀ hrp₀ hpc₀
          rw [hrp] at hrp₀
          injection hrp₀ with hrp₀
          subst hrp₀
          refine ⟨_, hRp, ?_⟩
          rw [List.mem_filter]
          simp
        · intro c cc hmc hcd hcp
          by_cases hcp2 : c = p
          · exfalso
            rw [hcp2, hq] at hmc
            injection hmc with h2
            rw [← h2] at hcp
            exact hppd hcp
          · refine ⟨_, by rw [hRother c hcp2 hcd, hmc, removeClear_some], ?_⟩
            rw [clearCfg_of_eq hcp]

/-- **C8**: the domain configuration remains a consistent forest under
editing.  Starting from a domains map in which every subdomain id names
an existing domain, `parent_domain` and `subdomain_ids` are mutually
consistent, and the parent graph has no cycles, `handleAddDomain` (with
no parent, or with an existing parent) and `handleRemoveDomain`
preserve all three properties; removal in particular deletes the
removed id, drops it from its parent's `subdomain_ids`, and clears the
`parent_domain` of its children. -/
theorem domain_editing_preserves_forest :
    (∀ (m : DomainMap) (nid name desc parent : String),
      DomainForest m → nid ≠ "" → m nid = none →
      (parent = "" ∨ (m parent).isSome) →
      DomainForest (handleAddDomain m nid name desc parent)) ∧
    (∀ (m : DomainMap) (did : String), DomainForest m →
      DomainForest (handleRemoveDomain m did) ∧
      (∀ rd, m did = some rd →
        handleRemoveDomain m did did = none ∧
        (∀ p₀ pc₀, rd.parent_domain = some p₀ → m p₀ = some pc₀ →
          ∃ pc', handleRemoveDomain m did p₀ = some pc' ∧
            did ∉ pc'.subdomain_ids) ∧
        (∀ c cc, m c = some cc → c ≠ did → cc.parent_domain = some did →
          ∃ cc', handleRemoveDomain m did c = some cc' ∧
            cc'.parent_domain = none))) :=
  ⟨fun _ _ _ _ _ hf hid hnew hpar => add_preserves_forest hf hid hnew hpar,
   fun _ _ hf => remove_preserves_forest hf⟩

/-- A one-domain map used to witness the editing theorem. -/
def domainsOne : DomainMap :=
  fun k => if k = "a" then some ⟨"Domain A", "", none, []⟩ else none

/-- `domainsOne` satisfies the three forest invariants. -/
theorem domainsOne_forest : DomainForest domainsOne := by
  refine ⟨?_, ?_, acyclic_of_no_step ?_⟩
  · intro p pc hp c hc
    by_cases hpa : p = "a"
    · rw [domainsOne, if_pos hpa] at hp
      injection hp with hp
      rw [← hp] at hc
      simp at hc
    · rw [domainsOne, if_neg hpa] at hp
      cases hp
  · intro c cc p hc hcp
    by_cases hca : c = "a"
    · rw [domainsOne, if_pos hca] at hc
      injection hc with hc
      rw [← hc] at hcp
      cases hcp
    · rw [domainsOne, if_neg hca] at hc
      cases hc
  · rintro a b ⟨cc, hca, hcp⟩
    by_cases haa : a = "a"
    · rw [domainsOne, if_pos haa] at hca
      injection hca with hca
      rw [← hca] at hcp
      cases hcp
    · rw [domainsOne, if_neg haa] at hca
      cases hca

/-- Witness for `domain_editing_preserves_forest`: add `b` under the
existing `a`, and remove `a`, from the concrete one-domain map. -/
theorem domain_editing_preserves_forest_witness :
    DomainForest domainsOne ∧
    ("b" ≠ "" ∧ domainsOne "b" = none ∧
      (("a" : String) = "" ∨ (domainsOne "a").isSome)) ∧
    DomainForest (handleAddDomain domainsOne "b" "Domain B" "" "a") ∧
    (DomainForest (handleRemoveDomain domainsOne "a") ∧
      (∀ rd, domainsOne "a" = some rd →
        handleRemoveDomain domainsOne "a" "a" = none ∧
        (∀ p₀ pc₀, rd.parent_domain = some p₀ → domainsOne p₀ = some pc₀ →
          ∃ pc', handleRemoveDomain domainsOne "a" p₀ = some pc' ∧
            "a" ∉ pc'.subdomain_ids) ∧
        (∀ c cc, domainsOne c = some cc → c ≠ "a" →
          cc.parent_domain = some "a" →
          ∃ cc', handleRemoveDomain domainsOne "a" c = some cc' ∧
            cc'.parent_domain = none))) := by
  have hb : domainsOne "b" = none := by
    rw [domainsOne, if_neg (by decide)]
  have ha : (domainsOne "a").isSome := by
    rw [domainsOne, if_pos rfl]
    rfl
  exact ⟨domainsOne_forest, ⟨by decide, hb, Or.inr ha⟩,
    domain_editing_preserves_forest.1 domainsOne "b" "Domain B" "" "a"
      domainsOne_forest (by decide) hb (Or.inr ha),
    domain_editing_preserves_forest.2 domainsOne "a" domainsOne_forest⟩

end PlmDelux
